import Mathlib

/-
Verification of the retry-subscription collection wrapper
(function retryCollectionSubscription, src/package.json lines 132-241).

The development shallowly embeds the TypeScript source:

* JsMap models the JavaScript Map used for the mutable state variable:
  an insertion-ordered association list; set updates an existing key in
  place, delete removes the entry, iteration follows insertion order.
* diffGo / diffSnapshot embed the reconciliation branch of the loop body
  (lines 169-196): the first batch of a resubscription is treated as a
  full snapshot and diffed against the stored state.
* applyLive embeds the live-update branch (lines 198-213).
* backoff / computeDelay embed the jittered exponential backoff
  (lines 230-231); the Math.random draw is an explicit rational argument.
* retryCollectionSubscription embeds the outer retry loop (lines 158-240)
  as a fuelled executor over an abstract source: each subscription
  attempt is a finite list of batches followed by either a failure or a
  clean completion.  The executor produces a trace of observable events
  (subscription openings, emitted batches, onError hook invocations,
  backoff waits), the terminal outcome, and the final loop state.
-/

namespace RetrySubscription

/-- A single update of the collection: a key together with an optional
value; value none models the absent (undefined) value, meaning the item
was removed (source lines 121-130). -/
structure CollectionSubscriptionUpdate (K V : Type) where
  key : K
  value : Option V
  deriving Repr, DecidableEq

/-- A batch of updates, as yielded by the source and by the wrapper. -/
abbrev Batch (K V : Type) := List (CollectionSubscriptionUpdate K V)

/-- Insertion-ordered map modelling the JavaScript Map: an association
list; set replaces the value of an existing key in place, otherwise
appends; delete removes the entry; iteration follows the list order. -/
structure JsMap (K R : Type) where
  entries : List (K × R)
  deriving Repr, DecidableEq

namespace JsMap

variable {K R : Type} [DecidableEq K]

/-- The empty map (new Map(), source line 152). -/
def empty : JsMap K R := ⟨[]⟩

/-- Lookup, modelling Map.get. -/
def get? (m : JsMap K R) (k : K) : Option R :=
  (m.entries.find? (fun en => en.1 == k)).map (fun en => en.2)

/-- Membership test, modelling Map.has (and the boolean result of
Map.delete). -/
def has (m : JsMap K R) (k : K) : Bool :=
  (m.get? k).isSome

/-- Insertion or in-place update, modelling Map.set: an existing key
keeps its position, a new key is appended at the end. -/
def set (m : JsMap K R) (k : K) (r : R) : JsMap K R :=
  if m.has k then
    ⟨m.entries.map (fun en => if en.1 == k then (k, r) else en)⟩
  else
    ⟨m.entries ++ [(k, r)]⟩

/-- Removal, modelling Map.delete (a no-op when the key is absent). -/
def delete (m : JsMap K R) (k : K) : JsMap K R :=
  ⟨m.entries.filter (fun en => !(en.1 == k))⟩

/-- Keys in iteration (insertion) order, modelling Map.keys(). -/
def keys (m : JsMap K R) : List K :=
  m.entries.map (fun en => en.1)

/-- Key set of the map, forgetting the iteration order. -/
def keysSet (m : JsMap K R) : Finset K :=
  m.keys.toFinset

/-- Well-formedness: a JavaScript Map never holds two entries with the
same key. -/
@[reducible] def wf (m : JsMap K R) : Prop :=
  m.keys.Nodup

end JsMap

variable {K V R E : Type} [DecidableEq K]

/-- Loop body of the reconciliation branch, source lines 170-188.  The
first argument map plays the role of the state variable (the code
deletes each processed key from state in place, so at any point it holds
the not-yet-processed remainder of the old state); nextState is built
fresh; diff accumulates the events to be emitted.  An absent value
throws in the source: here the offending key is recorded and processing
stops, returning the maps exactly as mutated so far. -/
def diffGo (getRevision : V → R) (equality : R → R → Bool) :
    JsMap K R → JsMap K R → Batch K V → Batch K V →
      Batch K V × JsMap K R × JsMap K R × Option K
  | state, nextState, diff, [] => (diff, state, nextState, none)
  | state, nextState, diff, u :: rest =>
    match u.value with
    | none => (diff, state, nextState, some u.key)
    | some v =>
      let revision := getRevision v
      let diff2 :=
        match state.get? u.key with
        | none => diff ++ [⟨u.key, some v⟩]
        | some r => if equality r revision then diff else diff ++ [⟨u.key, some v⟩]
      diffGo getRevision equality (state.delete u.key)
        (nextState.set u.key revision) diff2 rest

/-- The reconciliation branch, source lines 169-196: diff the snapshot
batch against the stored state.  On success it returns the emitted diff
batch (upserts followed by one absent-value event per key of the old
state missing from the snapshot, in state iteration order) and the new
state.  On a protocol violation it returns the offending key together
with the state as mutated so far (the source throws at line 175, after
having already deleted the processed keys from state). -/
def diffSnapshot (getRevision : V → R) (equality : R → R → Bool)
    (state : JsMap K R) (updates : Batch K V) :
    Except (K × JsMap K R) (Batch K V × JsMap K R) :=
  match diffGo getRevision equality state .empty [] updates with
  | (diff, remaining, nextState, none) =>
    .ok (diff ++ remaining.keys.map (fun k => ⟨k, none⟩), nextState)
  | (_, remaining, _, some k) => .error (k, remaining)

/-- The live-update branch, source lines 198-210: apply a non-initial
batch directly to the state.  A present value sets the key to its
revision; an absent value deletes the key, and if the key was not
present the source throws at line 203: here the offending key is
recorded and the state is returned as mutated so far. -/
def applyLive (getRevision : V → R) :
    JsMap K R → Batch K V → JsMap K R × Option K
  | state, [] => (state, none)
  | state, u :: rest =>
    match u.value with
    | none =>
      if state.has u.key then
        applyLive getRevision (state.delete u.key) rest
      else
        (state, some u.key)
    | some v => applyLive getRevision (state.set u.key (getRevision v)) rest

/-- Unjittered backoff, source line 230:
Math.min(maxDelayMs, Math.pow(2, attempt) * baseMs). -/
def backoff (baseMs maxDelayMs : ℕ) (attempt : ℕ) : ℕ :=
  min maxDelayMs (2 ^ attempt * baseMs)

/-- Jittered delay, source line 231:
Math.round((backoff * (1 + Math.random())) / 2), with the uniform draw
r passed explicitly. -/
def computeDelay (baseMs maxDelayMs : ℕ) (attempt : ℕ) (r : ℚ) : ℤ :=
  round (((backoff baseMs maxDelayMs attempt : ℚ) * (1 + r)) / 2)

/-- Errors of a run: an error raised by the source, or one of the two
protocol violations the wrapper itself throws (source lines 175 and
203). -/
inductive RunError (K E : Type) where
  | src (e : E)
  | violationInitial (key : K)
  | violationLive (key : K)
  deriving Repr, DecidableEq

/-- Behaviour of one subscription attempt of the abstract source: a
finite list of batches, followed by either a raised error (failure some
e) or clean completion of the iterable (failure none). -/
structure AttemptSpec (K V E : Type) where
  batches : List (Batch K V)
  failure : Option E
  deriving Repr

/-- Resolved options of the wrapper, source lines 142-150.  maxAttempts
none models the default Infinity.  The onError hook returns some e when
it raises e (rethrow or a fresh error) and none when it returns
normally. -/
structure Config (K V R E : Type) where
  baseMs : ℕ := 1000
  maxDelayMs : ℕ := 15000
  maxAttempts : Option ℕ := none
  onError : RunError K E → Option ℕ → Option ℤ → Option (RunError K E) :=
    fun _ _ _ => none
  getRevision : V → R
  equality : R → R → Bool

/-- Mutable variables of the generator, source lines 152-156: the state
map, the attempt counter (none models undefined), and outerCount, here
the index of the subscription about to be opened.  draws counts the
Math.random draws consumed so far. -/
structure LoopState (K R : Type) where
  state : JsMap K R
  attempt : Option ℕ
  outerCount : ℕ
  draws : ℕ
  deriving Repr, DecidableEq

/-- Observable events of a run: a subscription opening, a yielded batch,
an onError hook invocation with its three arguments, and a backoff wait
of the given number of milliseconds. -/
inductive TraceEvent (K V E : Type) where
  | subscribe (index : ℕ)
  | emit (batch : Batch K V)
  | hookCall (error : RunError K E) (attempt : Option ℕ) (delayMs : Option ℤ)
  | wait (delayMs : ℤ)
  deriving Repr, DecidableEq

/-- Terminal outcome of a fuelled run: clean completion (source line
216), a propagated failure, or fuel exhaustion of the executor while
the loop would keep running. -/
inductive RunResult (K E : Type) where
  | done
  | failed (error : RunError K E)
  | fuelOut
  deriving Repr, DecidableEq

/-- Loop over the received batches of one subscription attempt, source
lines 164-214.  Returns the batches emitted to the consumer (in order),
the state after processing, and the protocol violation, if any, that
stopped processing.  The branch choice at line 169 compares innerCount
with 0 and outerCount with 0. -/
def runBatches (cfg : Config K V R E) (outerCount : ℕ) :
    ℕ → JsMap K R → List (Batch K V) →
      List (Batch K V) × JsMap K R × Option (RunError K E)
  | _, state, [] => ([], state, none)
  | innerCount, state, b :: rest =>
    if innerCount = 0 ∧ outerCount ≠ 0 then
      match diffSnapshot cfg.getRevision cfg.equality state b with
      | .ok (diff, nextState) =>
        let r := runBatches cfg outerCount (innerCount + 1) nextState rest
        (diff :: r.1, r.2)
      | .error (k, broken) => ([], broken, some (.violationInitial k))
    else
      match applyLive cfg.getRevision state b with
      | (st1, none) =>
        let r := runBatches cfg outerCount (innerCount + 1) st1 rest
        (b :: r.1, r.2)
      | (broken, some k) => ([], broken, some (.violationLive k))

/-- Net result of one subscription attempt: emitted batches, resulting
state, and the error reaching the catch block (a protocol violation
thrown while processing a batch, or else the failure of the source
itself; none when the source completed cleanly). -/
def attemptOutcome (cfg : Config K V R E) (outerCount : ℕ)
    (state : JsMap K R) (spec : AttemptSpec K V E) :
    List (Batch K V) × JsMap K R × Option (RunError K E) :=
  match runBatches cfg outerCount 0 state spec.batches with
  | (em, st1, some verr) => (em, st1, some verr)
  | (em, st1, none) => (em, st1, spec.failure.map .src)

/-- The catch block, source lines 217-239 (cancellation aside): on a
post-initialization failure (attempt undefined) invoke the hook with
(error, undefined, undefined) and retry immediately with attempt reset
to 0; on a pre-initialization failure check the attempt budget, compute
the jittered delay, invoke the hook with (error, attempt, delayMs),
wait, and retry with attempt + 1.  Returns the trace events of the
block and either a terminal result (budget exhausted, or the hook
raised) or the loop state to continue with. -/
def handleFailure (cfg : Config K V R E) (rand : ℕ → ℚ)
    (st : LoopState K R) (error : RunError K E) :
    List (TraceEvent K V E) × (RunResult K E ⊕ LoopState K R) :=
  match st.attempt with
  | none =>
    match cfg.onError error none none with
    | some e => ([.hookCall error none none], .inl (.failed e))
    | none =>
      ([.hookCall error none none],
        .inr ⟨st.state, some 0, st.outerCount + 1, st.draws⟩)
  | some n =>
    let exhausted : Bool :=
      match cfg.maxAttempts with
      | some m => decide (n ≥ m)
      | none => false
    if exhausted then
      ([], .inl (.failed error))
    else
      let delayMs := computeDelay cfg.baseMs cfg.maxDelayMs n (rand st.draws)
      match cfg.onError error (some n) (some delayMs) with
      | some e => ([.hookCall error (some n) (some delayMs)], .inl (.failed e))
      | none =>
        ([.hookCall error (some n) (some delayMs), .wait delayMs],
          .inr ⟨st.state, some (n + 1), st.outerCount + 1, st.draws + 1⟩)

/-- Fuelled executor of the retry loop, source lines 158-240.  Each unit
of fuel allows one subscription attempt.  Returns the event trace, the
terminal outcome (fuelOut when fuel ran out first), and the loop state
at the end.  Each received batch sets attempt to undefined (line 167)
before it is processed, so a batch list that is non-empty unsets
attempt even when processing its first batch throws. -/
def retryCollectionSubscription (cfg : Config K V R E)
    (source : ℕ → AttemptSpec K V E) (rand : ℕ → ℚ) :
    ℕ → LoopState K R →
      List (TraceEvent K V E) × RunResult K E × LoopState K R
  | 0, st => ([], .fuelOut, st)
  | fuel + 1, st =>
    let spec := source st.outerCount
    let out := attemptOutcome cfg st.outerCount st.state spec
    let attempt1 : Option ℕ := if spec.batches.isEmpty then st.attempt else none
    let st1 : LoopState K R := ⟨out.2.1, attempt1, st.outerCount, st.draws⟩
    let evs := .subscribe st.outerCount :: out.1.map .emit
    match out.2.2 with
    | none => (evs, .done, st1)
    | some err =>
      match handleFailure cfg rand st1 err with
      | (hevs, .inl r) => (evs ++ hevs, r, st1)
      | (hevs, .inr st2) =>
        let rest := retryCollectionSubscription cfg source rand fuel st2
        (evs ++ hevs ++ rest.1, rest.2)

/-- Initial loop state, source lines 152-156: empty state, attempt 0,
about to open subscription 0, no random draws consumed. -/
def initialLoopState : LoopState K R :=
  ⟨.empty, some 0, 0, 0⟩

/-- Batches emitted to the consumer during a trace, in order. -/
def emittedBatches : List (TraceEvent K V E) → List (Batch K V) :=
  List.filterMap (fun ev =>
    match ev with
    | .emit b => some b
    | _ => none)

/-- The onError hook invocations of a trace, in order, with their
arguments. -/
def hookCalls :
    List (TraceEvent K V E) → List (RunError K E × Option ℕ × Option ℤ) :=
  List.filterMap (fun ev =>
    match ev with
    | .hookCall e a d => some (e, a, d)
    | _ => none)

/-- Number of subscription attempts opened during a trace. -/
def subscribeCount (tr : List (TraceEvent K V E)) : ℕ :=
  (tr.filter (fun ev =>
    match ev with
    | .subscribe _ => true
    | _ => false)).length

/-- Does the trace event record a protocol violation reaching the catch
block? -/
def TraceEvent.isViolation : TraceEvent K V E → Bool
  | .hookCall (.violationInitial _) _ _ => true
  | .hookCall (.violationLive _) _ _ => true
  | _ => false

/-- A run during which the source never committed a protocol violation:
no violation error was ever handed to the failure handler. -/
@[reducible] def ViolationFree (tr : List (TraceEvent K V E)) : Prop :=
  ∀ ev ∈ tr, ev.isViolation = false

/-- Key set the consumer believes in after a sequence of updates: an
upsert inserts the key, a delete removes it. -/
def keysAfterUpdates : Finset K → Batch K V → Finset K
  | s, [] => s
  | s, u :: rest =>
    keysAfterUpdates
      (match u.value with
       | some _ => insert u.key s
       | none => s.erase u.key) rest

/-- Key set the consumer believes in after a sequence of batches. -/
def keysAfterBatches (s : Finset K) (bs : List (Batch K V)) : Finset K :=
  bs.foldl keysAfterUpdates s

/-- Key set of a batch, forgetting order and values. -/
def batchKeysSet (b : Batch K V) : Finset K :=
  (b.map (fun u => u.key)).toFinset

/-- Keys that carry a present value somewhere in the batch. -/
def presentKeys (b : Batch K V) : List K :=
  b.filterMap (fun u => u.value.map (fun _ => u.key))

/-- Upsert part of the diff batch as claim C3 words it: the snapshot
items, in snapshot order, whose key is absent from the OLD state or
whose revision differs from the one stored there under the injected
equality.  (The code tests the remaining working copy instead of the
old state; the two coincide only when the snapshot has no duplicate
keys.) -/
def claimUpsertEvents (getRevision : V → R) (equality : R → R → Bool)
    (old : JsMap K R) (snapshot : Batch K V) : Batch K V :=
  snapshot.filter (fun u =>
    match u.value with
    | none => false
    | some v =>
      match old.get? u.key with
      | none => true
      | some r => !(equality r (getRevision v)))

/-- Deletion part of the diff batch as claim C3 words it: one
absent-value event for each key of the old state not occurring in the
snapshot, in the old state iteration order. -/
def claimDeleteEvents (old : JsMap K R) (snapshot : Batch K V) : Batch K V :=
  (old.keys.filter (fun k => !(snapshot.any (fun u => u.key == k)))).map
    (fun k => ⟨k, none⟩)

/-- The full diff batch as claim C3 words it. -/
def claimDiffEvents (getRevision : V → R) (equality : R → R → Bool)
    (old : JsMap K R) (snapshot : Batch K V) : Batch K V :=
  claimUpsertEvents getRevision equality old snapshot ++
    claimDeleteEvents old snapshot

/-- New state as claim C3 words it: exactly the snapshot keys mapped to
their revisions. -/
def claimNewState (getRevision : V → R) (snapshot : Batch K V) : JsMap K R :=
  ⟨snapshot.filterMap (fun u => u.value.map (fun v => (u.key, getRevision v)))⟩

/-
Concrete fixtures over natural numbers, used by the closed
counterexamples and by the witnesses of the hypothesised theorems.
-/

/-- Configuration with identity revision and structural equality over
natural numbers, all other options left at their defaults. -/
def natConfig : Config ℕ ℕ ℕ ℕ :=
  { getRevision := fun v => v, equality := fun a b => a == b }

/-- natConfig with maxAttempts 2. -/
def natConfigMax2 : Config ℕ ℕ ℕ ℕ :=
  { natConfig with maxAttempts := some 2 }

/-- natConfig with maxAttempts 1. -/
def natConfigMax1 : Config ℕ ℕ ℕ ℕ :=
  { natConfig with maxAttempts := some 1 }

/-- Configuration whose onError hook rethrows every error it is given. -/
def rethrowConfig : Config ℕ ℕ ℕ ℕ :=
  { natConfig with onError := fun e _ _ => some e }

/-- Math.random fixed at its midpoint, as in the test suite. -/
def halfRand : ℕ → ℚ := fun _ => 1 / 2

/-- Source whose first attempt commits a live-update protocol violation
(a delete of key 0 while State is empty) and whose second attempt
completes cleanly. -/
def violationSource : ℕ → AttemptSpec ℕ ℕ ℕ :=
  fun i => if i = 0 then ⟨[[⟨0, none⟩]], none⟩ else ⟨[], none⟩

/-- Source whose every attempt sends, as its first batch, an upsert of
key 0 followed by a delete of key 0, then completes cleanly. -/
def firstBatchDeleteSource : ℕ → AttemptSpec ℕ ℕ ℕ :=
  fun _ => ⟨[[⟨0, some 7⟩, ⟨0, none⟩]], none⟩

/-- Source whose first batch upserts key 0 and then deletes the absent
key 1, committing a protocol violation mid-batch. -/
def midBatchViolationSource : ℕ → AttemptSpec ℕ ℕ ℕ :=
  fun _ => ⟨[[⟨0, some 7⟩, ⟨1, none⟩]], none⟩

/-- Source whose attempt i fails with error i before producing any
batch. -/
def allFailSource : ℕ → AttemptSpec ℕ ℕ ℕ :=
  fun i => ⟨[], some i⟩

/-- Source whose attempt i produces one batch (an upsert of key 0) and
then fails with error i. -/
def batchThenFailSource : ℕ → AttemptSpec ℕ ℕ ℕ :=
  fun i => ⟨[[⟨0, some 7⟩]], some i⟩

/-- Source whose first attempt upserts key 0 and fails, and whose later
attempts reconcile with a changed value for key 0 and then upsert key 1,
completing cleanly. -/
def reconnectSource : ℕ → AttemptSpec ℕ ℕ ℕ :=
  fun i =>
    if i = 0 then ⟨[[⟨0, some 7⟩]], some 5⟩
    else ⟨[[⟨0, some 8⟩], [⟨1, some 9⟩]], none⟩

/-
Helper lemmas about the JsMap operations.
-/

/-- Filtering by a predicate implied by the search predicate does not
change the result of find?. -/
theorem find?_filter_of_imp {α : Type} (p q : α → Bool)
    (h : ∀ a, p a = true → q a = true) :
    ∀ l : List α, (l.filter q).find? p = l.find? p := by
  intro l
  induction l with
  | nil => rfl
  | cons a t ih =>
    by_cases hq : q a = true
    · rw [List.filter_cons_of_pos hq]
      by_cases hp : p a = true
      · rw [List.find?_cons_of_pos _ hp, List.find?_cons_of_pos _ hp]
      · rw [List.find?_cons_of_neg _ hp, List.find?_cons_of_neg _ hp]
        exact ih
    · rw [List.filter_cons_of_neg hq]
      have hp : ¬p a = true := fun hpa => hq (h a hpa)
      rw [List.find?_cons_of_neg _ hp]
      exact ih

/-- In a list of pairs with pairwise distinct first components, find?
on the first component locates exactly the member pair. -/
theorem find?_eq_of_mem_of_nodup {K R : Type} [DecidableEq K] {k : K} {r : R} :
    ∀ l : List (K × R), (l.map (fun en => en.1)).Nodup → (k, r) ∈ l →
      l.find? (fun en => en.1 == k) = some (k, r) := by
  intro l
  induction l with
  | nil => intro _ hm; simp at hm
  | cons en t ih =>
    intro hnd hm
    rw [List.map_cons] at hnd
    have hnd2 := List.nodup_cons.mp hnd
    rcases List.mem_cons.mp hm with h | h
    · rw [← h]
      exact List.find?_cons_of_pos (p := fun en : K × R => en.1 == k) _ (by simp)
    · have hne : ((fun en : K × R => en.1 == k) en) ≠ true := by
        have hk : k ∈ t.map (fun en => en.1) := List.mem_map.mpr ⟨(k, r), h, rfl⟩
        intro hEq
        rw [beq_iff_eq] at hEq
        subst hEq
        exact hnd2.1 hk
      rw [List.find?_cons_of_neg (p := fun en : K × R => en.1 == k) _ hne]
      exact ih hnd2.2 h

namespace JsMap

variable {K R : Type} [DecidableEq K] {m : JsMap K R} {k k' : K} {r : R}

theorem isSome_get?_iff : (m.get? k).isSome ↔ k ∈ m.keys := by
  simp only [get?, keys, Option.isSome_map', List.find?_isSome, List.mem_map,
    beq_iff_eq]

theorem has_iff : m.has k = true ↔ k ∈ m.keys := by
  simp only [has]
  exact isSome_get?_iff

theorem has_eq_false_iff : m.has k = false ↔ k ∉ m.keys := by
  rw [← Bool.not_eq_true, not_iff_not]
  exact has_iff

theorem mem_keysSet : k ∈ m.keysSet ↔ k ∈ m.keys :=
  List.mem_toFinset

theorem keys_set_of_has (h : m.has k = true) : (m.set k r).keys = m.keys := by
  simp only [set, h, if_true, keys, List.map_map]
  refine List.map_congr_left (fun en _ => ?_)
  by_cases hk : en.1 = k <;> simp [Function.comp, hk]

theorem entries_set_of_not_has (h : m.has k = false) :
    (m.set k r).entries = m.entries ++ [(k, r)] := by
  simp [set, h]

theorem keys_set_of_not_has (h : m.has k = false) :
    (m.set k r).keys = m.keys ++ [k] := by
  simp [keys, entries_set_of_not_has h]

theorem keysSet_set : (m.set k r).keysSet = insert k m.keysSet := by
  by_cases h : m.has k
  · rw [keysSet, keys_set_of_has h]
    exact (Finset.insert_eq_self.mpr (mem_keysSet.mpr (has_iff.mp h))).symm
  · rw [keysSet, keys_set_of_not_has (Bool.eq_false_iff.mpr h), List.toFinset_append]
    simp [Finset.insert_eq, Finset.union_comm, keysSet]

theorem mem_keys_set : k' ∈ (m.set k r).keys ↔ k' = k ∨ k' ∈ m.keys := by
  rw [← mem_keysSet, keysSet_set, Finset.mem_insert, mem_keysSet]

theorem keys_delete : (m.delete k).keys = m.keys.filter (fun x => !(x == k)) := by
  simp only [delete, keys, List.filter_map]
  rfl

theorem keysSet_delete : (m.delete k).keysSet = m.keysSet.erase k := by
  rw [keysSet, keys_delete, List.toFinset_filter, ← Finset.filter_ne' m.keysSet k]
  exact Finset.filter_congr (fun x _ => by simp)

theorem mem_keys_delete : k' ∈ (m.delete k).keys ↔ k' ≠ k ∧ k' ∈ m.keys := by
  rw [← mem_keysSet, keysSet_delete, Finset.mem_erase, mem_keysSet]

theorem get?_delete_ne (h : k' ≠ k) : (m.delete k).get? k' = m.get? k' := by
  have himp : ∀ en : K × R, (en.1 == k') = true → (!(en.1 == k)) = true := by
    intro en hp
    simp only [beq_iff_eq] at hp
    simp [hp, h]
  have heq := find?_filter_of_imp (fun en => en.1 == k')
    (fun en => !(en.1 == k)) himp m.entries
  simp only [delete, get?]
  rw [heq]

theorem get?_eq_of_mem (hwf : m.wf) (hm : (k, r) ∈ m.entries) :
    m.get? k = some r := by
  simp only [get?]
  rw [find?_eq_of_mem_of_nodup m.entries hwf hm]
  rfl

end JsMap

/-
Helper lemmas about consumer key sets and the batch processors.
-/

theorem keysAfterUpdates_append (b1 b2 : Batch K V) :
    ∀ s : Finset K,
      keysAfterUpdates s (b1 ++ b2) = keysAfterUpdates (keysAfterUpdates s b1) b2 := by
  induction b1 with
  | nil => intro s; rfl
  | cons u rest ih => intro s; simp only [List.cons_append, keysAfterUpdates]; exact ih _

theorem batchKeysSet_cons (u : CollectionSubscriptionUpdate K V) (b : Batch K V) :
    batchKeysSet (u :: b) = insert u.key (batchKeysSet b) := by
  simp [batchKeysSet]

theorem keysAfterUpdates_allPresent (b : Batch K V)
    (h : ∀ u ∈ b, u.value ≠ none) :
    ∀ s : Finset K, keysAfterUpdates s b = s ∪ batchKeysSet b := by
  induction b with
  | nil => intro s; simp [keysAfterUpdates, batchKeysSet]
  | cons u rest ih =>
    intro s
    obtain ⟨v, hv⟩ := Option.ne_none_iff_exists'.mp (h u (List.mem_cons_self u rest))
    simp only [keysAfterUpdates, hv]
    rw [ih (fun w hw => h w (List.mem_cons_of_mem u hw)), batchKeysSet_cons]
    ext x
    simp [or_assoc, or_left_comm]

theorem keysAfterUpdates_allAbsent (b : Batch K V)
    (h : ∀ u ∈ b, u.value = none) :
    ∀ s : Finset K, keysAfterUpdates s b = s \ batchKeysSet b := by
  induction b with
  | nil => intro s; simp [keysAfterUpdates, batchKeysSet]
  | cons u rest ih =>
    intro s
    simp only [keysAfterUpdates, h u (List.mem_cons_self u rest)]
    rw [ih (fun w hw => h w (List.mem_cons_of_mem u hw)), batchKeysSet_cons]
    ext x
    simp only [Finset.mem_sdiff, Finset.mem_erase, Finset.mem_insert]
    tauto

theorem presentKeys_cons_none {u : CollectionSubscriptionUpdate K V}
    (b : Batch K V) (h : u.value = none) :
    presentKeys (u :: b) = presentKeys b := by
  simp [presentKeys, h]

theorem presentKeys_cons_some {u : CollectionSubscriptionUpdate K V}
    (b : Batch K V) {v : V} (h : u.value = some v) :
    presentKeys (u :: b) = u.key :: presentKeys b := by
  simp [presentKeys, h]

theorem applyLive_ok_keysSet (g : V → R) :
    ∀ (b : Batch K V) (st st1 : JsMap K R),
      applyLive g st b = (st1, none) →
      st1.keysSet = keysAfterUpdates st.keysSet b := by
  intro b
  induction b with
  | nil =>
    intro st st1 h
    obtain ⟨rfl, -⟩ := Prod.mk.injEq .. ▸ h
    rfl
  | cons u rest ih =>
    intro st st1 h
    cases hv : u.value with
    | none =>
      simp only [applyLive, hv] at h
      by_cases hh : st.has u.key
      · rw [if_pos hh] at h
        simp only [keysAfterUpdates, hv]
        rw [← JsMap.keysSet_delete]
        exact ih _ _ h
      · rw [if_neg hh] at h
        exact absurd (congrArg Prod.snd h) (by simp)
    | some v =>
      simp only [applyLive, hv] at h
      simp only [keysAfterUpdates, hv]
      rw [← JsMap.keysSet_set (r := g v)]
      exact ih _ _ h

theorem applyLive_violation (g : V → R) :
    ∀ (b : Batch K V) (st : JsMap K R),
      (∃ u ∈ b, u.value = none ∧ u.key ∉ st.keys ∧ u.key ∉ presentKeys b) →
      ∃ k st1, applyLive g st b = (st1, some k) := by
  intro b
  induction b with
  | nil => intro st h; simp at h
  | cons u rest ih =>
    intro st h
    obtain ⟨w, hw, hwnone, hwkeys, hwpres⟩ := h
    cases hv : u.value with
    | none =>
      by_cases hh : st.has u.key
      · simp only [applyLive, hv]
        rw [if_pos hh]
        have hwu : w ≠ u := by
          rintro rfl
          exact hwkeys (JsMap.has_iff.mp hh)
        have hwrest : w ∈ rest := (List.mem_cons.mp hw).resolve_left hwu
        refine ih _ ⟨w, hwrest, hwnone, ?_, ?_⟩
        · intro hmem
          exact hwkeys (JsMap.mem_keys_delete.mp hmem).2
        · rw [← presentKeys_cons_none rest hv]
          exact hwpres
      · exact ⟨u.key, st, by simp only [applyLive, hv]; rw [if_neg hh]⟩
    | some v =>
      have hwu : w ≠ u := by
        rintro rfl
        rw [hwnone] at hv
        exact Option.noConfusion hv
      have hwrest : w ∈ rest := (List.mem_cons.mp hw).resolve_left hwu
      simp only [applyLive, hv]
      refine ih _ ⟨w, hwrest, hwnone, ?_, ?_⟩
      · intro hmem
        rcases JsMap.mem_keys_set.mp hmem with hk | hk
        · refine hwpres ?_
          rw [presentKeys_cons_some rest hv, hk]
          exact List.mem_cons_self _ _
        · exact hwkeys hk
      · intro hmem
        refine hwpres ?_
        rw [presentKeys_cons_some rest hv]
        exact List.mem_cons_of_mem _ hmem

/-
Helper lemmas about the diff engine.
-/

theorem mem_batchKeysSet {b : Batch K V} {k : K} :
    k ∈ batchKeysSet b ↔ ∃ u ∈ b, u.key = k := by
  simp [batchKeysSet]

theorem claimUpsertEvents_delete (g : V → R) (e : R → R → Bool)
    (old : JsMap K R) (k : K) (b : Batch K V) (h : ∀ w ∈ b, w.key ≠ k) :
    claimUpsertEvents g e (old.delete k) b = claimUpsertEvents g e old b := by
  refine List.filter_congr (fun w hw => ?_)
  cases hv : w.value with
  | none => rfl
  | some v => rw [JsMap.get?_delete_ne (h w hw)]

/-- Exact characterization of the reconciliation pass for snapshots
with pairwise distinct keys and all values present: the emitted upserts
are the snapshot items whose key is new to or changed in the old state,
the remaining map keeps exactly the old entries whose key does not
occur in the snapshot, and the new state is the snapshot itself mapped
to revisions. -/
theorem diffGo_spec (g : V → R) (e : R → R → Bool) :
    ∀ (snap : Batch K V) (old next : JsMap K R) (acc : Batch K V),
      (snap.map (fun u => u.key)).Nodup →
      (∀ u ∈ snap, u.value ≠ none) →
      (∀ u ∈ snap, next.has u.key = false) →
      diffGo g e old next acc snap =
        (acc ++ claimUpsertEvents g e old snap,
          ⟨old.entries.filter (fun en => !(snap.any (fun u => u.key == en.1)))⟩,
          ⟨next.entries ++ (claimNewState g snap).entries⟩,
          none) := by
  intro snap
  induction snap with
  | nil =>
    intro old next acc _ _ _
    simp [diffGo, claimUpsertEvents, claimNewState]
  | cons u rest ih =>
    intro old next acc hnd hvals hhas
    obtain ⟨uk, uv⟩ := u
    obtain ⟨v, hv⟩ := Option.ne_none_iff_exists'.mp
      (hvals ⟨uk, uv⟩ (List.mem_cons_self _ _))
    subst hv
    rw [List.map_cons] at hnd
    have hnd2 := List.nodup_cons.mp hnd
    have hukrest : ∀ w ∈ rest, w.key ≠ uk := by
      intro w hw hEq
      exact hnd2.1 (List.mem_map.mpr ⟨w, hw, hEq⟩)
    have hhas2 : ∀ w ∈ rest, (next.set uk (g v)).has w.key = false := by
      intro w hw
      rw [JsMap.has_eq_false_iff, JsMap.mem_keys_set]
      push_neg
      exact ⟨hukrest w hw,
        JsMap.has_eq_false_iff.mp (hhas w (List.mem_cons_of_mem _ hw))⟩
    have hnext : (next.set uk (g v)).entries = next.entries ++ [(uk, g v)] :=
      JsMap.entries_set_of_not_has (hhas ⟨uk, some v⟩ (List.mem_cons_self _ _))
    have hfiltereq :
        (old.delete uk).entries.filter
            (fun en => !(rest.any (fun u => u.key == en.1))) =
          old.entries.filter
            (fun en =>
              !((⟨uk, some v⟩ :: rest : Batch K V).any (fun u => u.key == en.1))) := by
      rw [JsMap.delete, List.filter_filter]
      refine List.filter_congr (fun en _ => ?_)
      by_cases h2 : en.1 = uk
      · simp [h2, List.any_cons, Bool.and_comm]
      · have b1 : (en.1 == uk) = false := beq_eq_false_iff_ne.mpr h2
        have b2 : (uk == en.1) = false := beq_eq_false_iff_ne.mpr (Ne.symm h2)
        simp [List.any_cons, b1, b2]
    have ihinst : ∀ acc2 : Batch K V,
        diffGo g e (old.delete uk) (next.set uk (g v)) acc2 rest =
          (acc2 ++ claimUpsertEvents g e old rest,
            ⟨old.entries.filter
              (fun en =>
                !((⟨uk, some v⟩ :: rest : Batch K V).any
                  (fun u => u.key == en.1)))⟩,
            ⟨next.entries ++ ((uk, g v) :: (claimNewState g rest).entries)⟩,
            none) := by
      intro acc2
      rw [ih (old.delete uk) (next.set uk (g v)) acc2 hnd2.2
        (fun w hw => hvals w (List.mem_cons_of_mem _ hw)) hhas2]
      rw [claimUpsertEvents_delete g e old uk rest hukrest, hfiltereq, hnext,
        List.append_assoc]
      rfl
    have hnewcons :
        (claimNewState g (⟨uk, some v⟩ :: rest : Batch K V)).entries =
          (uk, g v) :: (claimNewState g rest).entries := by
      simp [claimNewState]
    cases hget : old.get? uk with
    | none =>
      have hcond :
          claimUpsertEvents g e old (⟨uk, some v⟩ :: rest : Batch K V) =
            ⟨uk, some v⟩ :: claimUpsertEvents g e old rest := by
        simp [claimUpsertEvents, List.filter_cons, hget]
      simp only [diffGo, hget, ihinst, hcond, hnewcons]
      simp
    | some r =>
      by_cases he : e r (g v) = true
      · have hcond :
            claimUpsertEvents g e old (⟨uk, some v⟩ :: rest : Batch K V) =
              claimUpsertEvents g e old rest := by
          simp [claimUpsertEvents, List.filter_cons, hget, he]
        simp only [diffGo, hget, he, if_true, ihinst, hcond, hnewcons]
      · have hcond :
            claimUpsertEvents g e old (⟨uk, some v⟩ :: rest : Batch K V) =
              ⟨uk, some v⟩ :: claimUpsertEvents g e old rest := by
          simp [claimUpsertEvents, List.filter_cons, hget, he]
        simp only [diffGo, hget, if_neg he, ihinst, hcond, hnewcons]
        simp

theorem diffSnapshot_spec (g : V → R) (e : R → R → Bool) (old : JsMap K R)
    (snap : Batch K V) (hnd : (snap.map (fun u => u.key)).Nodup)
    (hvals : ∀ u ∈ snap, u.value ≠ none) :
    diffSnapshot g e old snap =
      .ok (claimDiffEvents g e old snap, claimNewState g snap) := by
  have h := diffGo_spec g e snap old .empty [] hnd hvals (fun u _ => rfl)
  rw [diffSnapshot, h]
  have hkeys :
      (JsMap.mk (old.entries.filter
          (fun en => !(snap.any (fun u => u.key == en.1))))).keys =
        old.keys.filter (fun k => !(snap.any (fun u => u.key == k))) := by
    rw [JsMap.keys, JsMap.keys, List.filter_map]
    rfl
  simp only [hkeys, List.nil_append]
  rw [claimDiffEvents, claimDeleteEvents]
  rfl

/-- Key-set bookkeeping of the reconciliation pass, for arbitrary
snapshots: the new state holds exactly the snapshot keys, the remaining
map exactly the old keys missing from the snapshot, and the emitted
upserts are present-valued events covering, together with the old keys,
every snapshot key. -/
theorem diffGo_keys (g : V → R) (e : R → R → Bool) :
    ∀ (snap : Batch K V) (remaining nextState : JsMap K R) (acc d : Batch K V)
      (rem next : JsMap K R),
      diffGo g e remaining nextState acc snap = (d, rem, next, none) →
      next.keysSet = nextState.keysSet ∪ batchKeysSet snap ∧
      rem.keysSet = remaining.keysSet \ batchKeysSet snap ∧
      ∃ extra : Batch K V, d = acc ++ extra ∧
        (∀ u ∈ extra, u.value ≠ none) ∧
        (∀ u ∈ extra, u.key ∈ batchKeysSet snap) ∧
        (∀ k ∈ batchKeysSet snap,
          k ∈ remaining.keysSet ∨ ∃ u ∈ extra, u.key = k) := by
  intro snap
  induction snap with
  | nil =>
    intro remaining nextState acc d rem next h
    rw [diffGo] at h
    simp only [Prod.mk.injEq] at h
    obtain ⟨rfl, rfl, rfl, -⟩ := h
    refine ⟨by simp [batchKeysSet], by simp [batchKeysSet],
      [], (List.append_nil acc).symm, by simp, by simp, ?_⟩
    intro k hk
    simp [batchKeysSet] at hk
  | cons u rest ih =>
    intro remaining nextState acc d rem next h
    cases hv : u.value with
    | none =>
      simp only [diffGo, hv, Prod.mk.injEq] at h
      exact absurd h.2.2.2 (by simp)
    | some v =>
      simp only [diffGo, hv] at h
      have emitCase :
          diffGo g e (remaining.delete u.key) (nextState.set u.key (g v))
              (acc ++ [⟨u.key, some v⟩]) rest = (d, rem, next, none) →
            next.keysSet = nextState.keysSet ∪ batchKeysSet (u :: rest) ∧
            rem.keysSet = remaining.keysSet \ batchKeysSet (u :: rest) ∧
            ∃ extra : Batch K V, d = acc ++ extra ∧
              (∀ w ∈ extra, w.value ≠ none) ∧
              (∀ w ∈ extra, w.key ∈ batchKeysSet (u :: rest)) ∧
              (∀ k ∈ batchKeysSet (u :: rest),
                k ∈ remaining.keysSet ∨ ∃ w ∈ extra, w.key = k) := by
        intro h2
        obtain ⟨h1, hrem, extra, hd, hvals2, hkeys2, hcov2⟩ := ih _ _ _ _ _ _ h2
        refine ⟨?_, ?_, ⟨u.key, some v⟩ :: extra, ?_, ?_, ?_, ?_⟩
        · rw [h1, JsMap.keysSet_set, batchKeysSet_cons]
          ext x
          simp only [Finset.mem_union, Finset.mem_insert]
          tauto
        · rw [hrem, JsMap.keysSet_delete, batchKeysSet_cons]
          ext x
          simp only [Finset.mem_sdiff, Finset.mem_erase, Finset.mem_insert]
          tauto
        · rw [hd, List.append_assoc]
          rfl
        · intro w hw
          rcases List.mem_cons.mp hw with rfl | hw2
          · simp
          · exact hvals2 w hw2
        · intro w hw
          rw [batchKeysSet_cons]
          rcases List.mem_cons.mp hw with rfl | hw2
          · exact Finset.mem_insert_self _ _
          · exact Finset.mem_insert_of_mem (hkeys2 w hw2)
        · intro k hk
          rw [batchKeysSet_cons, Finset.mem_insert] at hk
          rcases hk with rfl | hk2
          · exact Or.inr ⟨⟨u.key, some v⟩, List.mem_cons_self _ _, rfl⟩
          · rcases hcov2 k hk2 with hmem | ⟨w, hw, hwk⟩
            · rw [JsMap.keysSet_delete, Finset.mem_erase] at hmem
              exact Or.inl hmem.2
            · exact Or.inr ⟨w, List.mem_cons_of_mem _ hw, hwk⟩
      cases hget : remaining.get? u.key with
      | none =>
        simp only [hget] at h
        exact emitCase h
      | some r0 =>
        simp only [hget] at h
        by_cases he : e r0 (g v) = true
        · rw [if_pos he] at h
          obtain ⟨h1, hrem, extra, hd, hvals2, hkeys2, hcov2⟩ := ih _ _ _ _ _ _ h
          have humem : u.key ∈ remaining.keysSet := by
            rw [JsMap.mem_keysSet]
            refine JsMap.has_iff.mp ?_
            rw [JsMap.has, hget]
            rfl
          refine ⟨?_, ?_, extra, hd, hvals2, ?_, ?_⟩
          · rw [h1, JsMap.keysSet_set, batchKeysSet_cons]
            ext x
            simp only [Finset.mem_union, Finset.mem_insert]
            tauto
          · rw [hrem, JsMap.keysSet_delete, batchKeysSet_cons]
            ext x
            simp only [Finset.mem_sdiff, Finset.mem_erase, Finset.mem_insert]
            tauto
          · intro w hw
            rw [batchKeysSet_cons]
            exact Finset.mem_insert_of_mem (hkeys2 w hw)
          · intro k hk
            rw [batchKeysSet_cons, Finset.mem_insert] at hk
            rcases hk with rfl | hk2
            · exact Or.inl humem
            · rcases hcov2 k hk2 with hmem | hx
              · rw [JsMap.keysSet_delete, Finset.mem_erase] at hmem
                exact Or.inl hmem.2
              · exact Or.inr hx
        · rw [if_neg he] at h
          exact emitCase h

theorem diffSnapshot_ok_keysSet (g : V → R) (e : R → R → Bool)
    (old : JsMap K R) (b : Batch K V) (ev : Batch K V) (next : JsMap K R)
    (h : diffSnapshot g e old b = .ok (ev, next)) :
    next.keysSet = keysAfterUpdates old.keysSet ev := by
  rw [diffSnapshot] at h
  rcases hgo : diffGo g e old JsMap.empty [] b with ⟨d, rem, nx, vio⟩
  rw [hgo] at h
  cases vio with
  | some k => exact absurd h (by simp)
  | none =>
    simp only [Except.ok.injEq, Prod.mk.injEq] at h
    obtain ⟨rfl, rfl⟩ := h
    obtain ⟨h1, hrem, extra, hd, hvals2, hkeys2, hcov2⟩ :=
      diffGo_keys g e b old JsMap.empty [] d rem nx hgo
    rw [List.nil_append] at hd
    rw [hd]
    rw [keysAfterUpdates_append, keysAfterUpdates_allPresent extra hvals2,
      keysAfterUpdates_allAbsent _ (by
        intro w hw
        rcases List.mem_map.mp hw with ⟨k, hk, rfl⟩
        rfl)]
    have hdelkeys :
        batchKeysSet ((rem.keys.map (fun k => (⟨k, none⟩ :
            CollectionSubscriptionUpdate K V))) : Batch K V) = rem.keysSet := by
      rw [batchKeysSet, List.map_map]
      have : ((fun u : CollectionSubscriptionUpdate K V => u.key) ∘
          (fun k => (⟨k, none⟩ : CollectionSubscriptionUpdate K V))) = id := by
        funext k
        rfl
      rw [this, List.map_id]
      rfl
    rw [hdelkeys, hrem, h1]
    have hempty : (JsMap.empty : JsMap K R).keysSet = ∅ := rfl
    rw [hempty, Finset.empty_union]
    ext x
    simp only [Finset.mem_sdiff, Finset.mem_union]
    constructor
    · intro hx
      refine ⟨?_, fun hcon => hcon.2 hx⟩
      rcases hcov2 x hx with hmem | ⟨w, hw, hwk⟩
      · exact Or.inl hmem
      · exact Or.inr (mem_batchKeysSet.mpr ⟨w, hw, hwk⟩)
    · rintro ⟨hx1, hx2⟩
      rcases hx1 with hx1 | hx1
      · by_contra hxb
        exact hx2 ⟨hx1, hxb⟩
      · obtain ⟨w, hw, hwk⟩ := mem_batchKeysSet.mp hx1
        exact hwk ▸ hkeys2 w hw

/-
Helper lemmas about the loop executor, its failure handler, and the
trace observers.
-/

theorem emittedBatches_append (l1 l2 : List (TraceEvent K V E)) :
    emittedBatches (l1 ++ l2) = emittedBatches l1 ++ emittedBatches l2 :=
  List.filterMap_append l1 l2 _

theorem emittedBatches_map_emit (bs : List (Batch K V)) :
    emittedBatches ((bs.map .emit : List (TraceEvent K V E))) = bs := by
  induction bs with
  | nil => rfl
  | cons b rest ih => simp [emittedBatches] at ih ⊢; exact ih

theorem hookCalls_append (l1 l2 : List (TraceEvent K V E)) :
    hookCalls (l1 ++ l2) = hookCalls l1 ++ hookCalls l2 :=
  List.filterMap_append l1 l2 _

theorem subscribeCount_append (l1 l2 : List (TraceEvent K V E)) :
    subscribeCount (l1 ++ l2) = subscribeCount l1 + subscribeCount l2 := by
  simp [subscribeCount, List.filter_append]

theorem handleFailure_events (cfg : Config K V R E) (rand : ℕ → ℚ)
    (st : LoopState K R) (err : RunError K E) :
    emittedBatches (handleFailure cfg rand st err).1 = ([] : List (Batch K V)) ∧
    subscribeCount (handleFailure cfg rand st err).1 = 0 := by
  rw [handleFailure]
  cases st.attempt with
  | none =>
    cases cfg.onError err none none <;>
      exact ⟨rfl, rfl⟩
  | some n =>
    simp only []
    cases cfg.maxAttempts with
    | none =>
      simp only []
      rw [if_neg Bool.false_ne_true]
      cases cfg.onError err (some n)
          (some (computeDelay cfg.baseMs cfg.maxDelayMs n (rand st.draws))) <;>
        exact ⟨rfl, rfl⟩
    | some m =>
      simp only []
      by_cases hge : n ≥ m
      · rw [if_pos (decide_eq_true hge)]
        exact ⟨rfl, rfl⟩
      · rw [if_neg (fun hc => hge (of_decide_eq_true hc))]
        cases cfg.onError err (some n)
            (some (computeDelay cfg.baseMs cfg.maxDelayMs n (rand st.draws))) <;>
          exact ⟨rfl, rfl⟩

theorem handleFailure_inr_state (cfg : Config K V R E) (rand : ℕ → ℚ)
    (st : LoopState K R) (err : RunError K E) (evs : List (TraceEvent K V E))
    (st2 : LoopState K R)
    (h : handleFailure cfg rand st err = (evs, .inr st2)) :
    st2.state = st.state := by
  rw [handleFailure] at h
  cases hatt : st.attempt with
  | none =>
    rw [hatt] at h
    simp only [] at h
    cases hcall : cfg.onError err none none with
    | some e =>
      rw [hcall] at h
      exact absurd (congrArg Prod.snd h) (by simp)
    | none =>
      rw [hcall] at h
      have h2 := Sum.inr.inj (congrArg Prod.snd h)
      rw [← h2]
  | some n =>
    rw [hatt] at h
    simp only [] at h
    cases hm : cfg.maxAttempts with
    | none =>
      rw [hm] at h
      simp only [] at h
      rw [if_neg Bool.false_ne_true] at h
      cases hcall : cfg.onError err (some n)
          (some (computeDelay cfg.baseMs cfg.maxDelayMs n (rand st.draws))) with
      | some e =>
        rw [hcall] at h
        exact absurd (congrArg Prod.snd h) (by simp)
      | none =>
        rw [hcall] at h
        have h2 := Sum.inr.inj (congrArg Prod.snd h)
        rw [← h2]
    | some m =>
      rw [hm] at h
      simp only [] at h
      by_cases hge : n ≥ m
      · rw [if_pos (decide_eq_true hge)] at h
        exact absurd (congrArg Prod.snd h) (by simp)
      · rw [if_neg (fun hc => hge (of_decide_eq_true hc))] at h
        cases hcall : cfg.onError err (some n)
            (some (computeDelay cfg.baseMs cfg.maxDelayMs n (rand st.draws))) with
        | some e =>
          rw [hcall] at h
          exact absurd (congrArg Prod.snd h) (by simp)
        | none =>
          rw [hcall] at h
          have h2 := Sum.inr.inj (congrArg Prod.snd h)
          rw [← h2]

theorem handleFailure_of_attempt_none (cfg : Config K V R E) (rand : ℕ → ℚ)
    (st : LoopState K R) (err : RunError K E) (h : st.attempt = none) :
    (handleFailure cfg rand st err).1 = [.hookCall err none none] := by
  rw [handleFailure, h]
  cases cfg.onError err none none <;> rfl

theorem keysAfterBatches_nil (s : Finset K) :
    keysAfterBatches s ([] : List (Batch K V)) = s := rfl

theorem keysAfterBatches_cons (s : Finset K) (b : Batch K V)
    (bs : List (Batch K V)) :
    keysAfterBatches s (b :: bs) = keysAfterBatches (keysAfterUpdates s b) bs := rfl

theorem keysAfterBatches_append (s : Finset K) (b1 b2 : List (Batch K V)) :
    keysAfterBatches s (b1 ++ b2) = keysAfterBatches (keysAfterBatches s b1) b2 :=
  List.foldl_append ..

theorem runBatches_nil (cfg : Config K V R E) (o i : ℕ) (st : JsMap K R) :
    runBatches cfg o i st [] = ([], st, none) := rfl

theorem runBatches_err_violation (cfg : Config K V R E) (o : ℕ) :
    ∀ (bs : List (Batch K V)) (i : ℕ) (st : JsMap K R) (em : List (Batch K V))
      (st1 : JsMap K R) (verr : RunError K E),
      runBatches cfg o i st bs = (em, st1, some verr) →
      (∃ k, verr = RunError.violationInitial k) ∨
        (∃ k, verr = RunError.violationLive k) := by
  intro bs
  induction bs with
  | nil =>
    intro i st em st1 verr h
    rw [runBatches_nil] at h
    exact absurd (congrArg (fun p => p.2.2) h) (by simp)
  | cons b rest ih =>
    intro i st em st1 verr h
    rw [runBatches] at h
    by_cases hc : i = 0 ∧ o ≠ 0
    · rw [if_pos hc] at h
      cases hds : diffSnapshot cfg.getRevision cfg.equality st b with
      | ok pr =>
        obtain ⟨diff, nxt⟩ := pr
        rw [hds] at h
        simp only [] at h
        rcases hr : runBatches cfg o (i + 1) nxt rest with ⟨em2, st2, v2⟩
        rw [hr] at h
        simp only [Prod.mk.injEq] at h
        obtain ⟨-, -, hv2⟩ := h
        exact ih (i + 1) nxt em2 st2 verr (by rw [hr, hv2])
      | error pr =>
        obtain ⟨k, broken⟩ := pr
        rw [hds] at h
        simp only [Prod.mk.injEq] at h
        obtain ⟨-, -, hv⟩ := h
        exact Or.inl ⟨k, (Option.some.inj hv).symm⟩
    · rw [if_neg hc] at h
      rcases hal : applyLive cfg.getRevision st b with ⟨sta, va⟩
      rw [hal] at h
      cases va with
      | none =>
        simp only [] at h
        rcases hr : runBatches cfg o (i + 1) sta rest with ⟨em2, st2, v2⟩
        rw [hr] at h
        simp only [Prod.mk.injEq] at h
        obtain ⟨-, -, hv2⟩ := h
        exact ih (i + 1) sta em2 st2 verr (by rw [hr, hv2])
      | some k =>
        simp only [Prod.mk.injEq] at h
        obtain ⟨-, -, hv⟩ := h
        exact Or.inr ⟨k, (Option.some.inj hv).symm⟩

theorem runBatches_ok_keysSet (cfg : Config K V R E) (o : ℕ) :
    ∀ (bs : List (Batch K V)) (i : ℕ) (st : JsMap K R) (em : List (Batch K V))
      (st1 : JsMap K R),
      runBatches cfg o i st bs = (em, st1, none) →
      st1.keysSet = keysAfterBatches st.keysSet em := by
  intro bs
  induction bs with
  | nil =>
    intro i st em st1 h
    rw [runBatches_nil] at h
    simp only [Prod.mk.injEq] at h
    obtain ⟨rfl, rfl, -⟩ := h
    rfl
  | cons b rest ih =>
    intro i st em st1 h
    rw [runBatches] at h
    by_cases hc : i = 0 ∧ o ≠ 0
    · rw [if_pos hc] at h
      cases hds : diffSnapshot cfg.getRevision cfg.equality st b with
      | ok pr =>
        obtain ⟨diff, nxt⟩ := pr
        rw [hds] at h
        simp only [] at h
        rcases hr : runBatches cfg o (i + 1) nxt rest with ⟨em2, st2, v2⟩
        rw [hr] at h
        simp only [Prod.mk.injEq] at h
        obtain ⟨rfl, hst, hv2⟩ := h
        rw [← hst, keysAfterBatches_cons,
          ← diffSnapshot_ok_keysSet cfg.getRevision cfg.equality st b diff nxt hds]
        exact ih (i + 1) nxt em2 st2 (by rw [hr, hv2])
      | error pr =>
        obtain ⟨k, broken⟩ := pr
        rw [hds] at h
        simp only [Prod.mk.injEq] at h
        exact absurd h.2.2 (by simp)
    · rw [if_neg hc] at h
      rcases hal : applyLive cfg.getRevision st b with ⟨sta, va⟩
      rw [hal] at h
      cases va with
      | none =>
        simp only [] at h
        rcases hr : runBatches cfg o (i + 1) sta rest with ⟨em2, st2, v2⟩
        rw [hr] at h
        simp only [Prod.mk.injEq] at h
        obtain ⟨rfl, hst, hv2⟩ := h
        rw [← hst, keysAfterBatches_cons,
          ← applyLive_ok_keysSet cfg.getRevision b st sta hal]
        exact ih (i + 1) sta em2 st2 (by rw [hr, hv2])
      | some k =>
        simp only [Prod.mk.injEq] at h
        exact absurd h.2.2 (by simp)

theorem run_succ_done (cfg : Config K V R E) (source : ℕ → AttemptSpec K V E)
    (rand : ℕ → ℚ) (fuel : ℕ) (st : LoopState K R)
    (em : List (Batch K V)) (st1s : JsMap K R)
    (h : attemptOutcome cfg st.outerCount st.state (source st.outerCount) =
      (em, st1s, none)) :
    retryCollectionSubscription cfg source rand (fuel + 1) st =
      (.subscribe st.outerCount :: em.map .emit, .done,
        ⟨st1s,
          if (source st.outerCount).batches.isEmpty then st.attempt else none,
          st.outerCount, st.draws⟩) := by
  simp only [retryCollectionSubscription, h]

theorem run_succ_inl (cfg : Config K V R E) (source : ℕ → AttemptSpec K V E)
    (rand : ℕ → ℚ) (fuel : ℕ) (st : LoopState K R)
    (em : List (Batch K V)) (st1s : JsMap K R) (err : RunError K E)
    (hevs : List (TraceEvent K V E)) (r : RunResult K E)
    (h : attemptOutcome cfg st.outerCount st.state (source st.outerCount) =
      (em, st1s, some err))
    (hh : handleFailure cfg rand
        ⟨st1s,
          if (source st.outerCount).batches.isEmpty then st.attempt else none,
          st.outerCount, st.draws⟩ err = (hevs, .inl r)) :
    retryCollectionSubscription cfg source rand (fuel + 1) st =
      ((.subscribe st.outerCount :: em.map .emit) ++ hevs, r,
        ⟨st1s,
          if (source st.outerCount).batches.isEmpty then st.attempt else none,
          st.outerCount, st.draws⟩) := by
  simp only [retryCollectionSubscription, h, hh]

theorem run_succ_inr (cfg : Config K V R E) (source : ℕ → AttemptSpec K V E)
    (rand : ℕ → ℚ) (fuel : ℕ) (st : LoopState K R)
    (em : List (Batch K V)) (st1s : JsMap K R) (err : RunError K E)
    (hevs : List (TraceEvent K V E)) (st2 : LoopState K R)
    (h : attemptOutcome cfg st.outerCount st.state (source st.outerCount) =
      (em, st1s, some err))
    (hh : handleFailure cfg rand
        ⟨st1s,
          if (source st.outerCount).batches.isEmpty then st.attempt else none,
          st.outerCount, st.draws⟩ err = (hevs, .inr st2)) :
    retryCollectionSubscription cfg source rand (fuel + 1) st =
      ((.subscribe st.outerCount :: em.map .emit) ++ hevs ++
          (retryCollectionSubscription cfg source rand fuel st2).1,
        (retryCollectionSubscription cfg source rand fuel st2).2) := by
  simp only [retryCollectionSubscription, h, hh]

theorem emittedBatches_cons_subscribe (i : ℕ) (tr : List (TraceEvent K V E)) :
    emittedBatches (.subscribe i :: tr) = emittedBatches tr := rfl

theorem emittedBatches_cons_hookCall (e : RunError K E) (a : Option ℕ)
    (d : Option ℤ) (tr : List (TraceEvent K V E)) :
    emittedBatches ((.hookCall e a d : TraceEvent K V E) :: tr) =
      emittedBatches tr := rfl

theorem subscribeCount_cons_subscribe (i : ℕ) (tr : List (TraceEvent K V E)) :
    subscribeCount (.subscribe i :: tr) = subscribeCount tr + 1 := by
  simp [subscribeCount, List.filter_cons]

theorem hookCalls_cons_subscribe (i : ℕ) (tr : List (TraceEvent K V E)) :
    hookCalls (.subscribe i :: tr) = hookCalls tr := rfl

theorem isViolation_hookCall_of_violation (err : RunError K E) (a : Option ℕ)
    (d : Option ℤ)
    (h : (∃ k, err = RunError.violationInitial k) ∨
      (∃ k, err = RunError.violationLive k)) :
    (TraceEvent.hookCall err a d : TraceEvent K V E).isViolation = true := by
  rcases h with ⟨k, rfl⟩ | ⟨k, rfl⟩ <;> rfl

theorem attemptOutcome_some (cfg : Config K V R E) (o : ℕ) (st : JsMap K R)
    (spec : AttemptSpec K V E) (em : List (Batch K V)) (st1 : JsMap K R)
    (err : RunError K E)
    (h : attemptOutcome cfg o st spec = (em, st1, some err)) :
    (runBatches cfg o 0 st spec.batches = (em, st1, some err) ∧
        spec.batches ≠ []) ∨
      (runBatches cfg o 0 st spec.batches = (em, st1, none) ∧
        ∃ e, spec.failure = some e ∧ err = .src e) := by
  rw [attemptOutcome] at h
  rcases hrb : runBatches cfg o 0 st spec.batches with ⟨em0, st0, v0⟩
  rw [hrb] at h
  cases v0 with
  | some v =>
    simp only [Prod.mk.injEq] at h
    obtain ⟨rfl, rfl, hv⟩ := h
    have hveq := Option.some.inj hv
    subst hveq
    refine Or.inl ⟨rfl, ?_⟩
    intro hnil
    rw [hnil, runBatches_nil] at hrb
    exact absurd (congrArg (fun p => p.2.2) hrb) (by simp)
  | none =>
    cases hf : spec.failure with
    | none =>
      rw [hf] at h
      simp only [Option.map_none', Prod.mk.injEq] at h
      exact absurd h.2.2 (by simp)
    | some e =>
      rw [hf] at h
      simp only [Option.map_some', Prod.mk.injEq] at h
      obtain ⟨rfl, rfl, hv⟩ := h
      exact Or.inr ⟨rfl, e, rfl, (Option.some.inj hv).symm⟩

theorem attemptOutcome_none (cfg : Config K V R E) (o : ℕ) (st : JsMap K R)
    (spec : AttemptSpec K V E) (em : List (Batch K V)) (st1 : JsMap K R)
    (h : attemptOutcome cfg o st spec = (em, st1, none)) :
    runBatches cfg o 0 st spec.batches = (em, st1, none) ∧
      spec.failure = none := by
  rw [attemptOutcome] at h
  rcases hrb : runBatches cfg o 0 st spec.batches with ⟨em0, st0, v0⟩
  rw [hrb] at h
  cases v0 with
  | some v =>
    simp only [Prod.mk.injEq] at h
    exact absurd h.2.2 (by simp)
  | none =>
    cases hf : spec.failure with
    | none =>
      rw [hf] at h
      simp only [Option.map_none', Prod.mk.injEq] at h
      obtain ⟨rfl, rfl, -⟩ := h
      exact ⟨rfl, rfl⟩
    | some e =>
      rw [hf] at h
      simp only [Option.map_some', Prod.mk.injEq] at h
      exact absurd h.2.2 (by simp)

/-- State-invariant of a violation-free run: starting from any loop
state, the key set of the final State equals the consumer key set
obtained by replaying the emitted batches over the starting key set. -/
theorem run_keysSet (cfg : Config K V R E) (source : ℕ → AttemptSpec K V E)
    (rand : ℕ → ℚ) :
    ∀ (fuel : ℕ) (st : LoopState K R),
      ViolationFree (retryCollectionSubscription cfg source rand fuel st).1 →
      ((retryCollectionSubscription cfg source rand fuel st).2.2).state.keysSet =
        keysAfterBatches st.state.keysSet
          (emittedBatches (retryCollectionSubscription cfg source rand fuel st).1) := by
  intro fuel
  induction fuel with
  | zero => intro st _; rfl
  | succ n ih =>
    intro st hvf
    rcases hout : attemptOutcome cfg st.outerCount st.state (source st.outerCount)
      with ⟨em, st1s, errOpt⟩
    cases errOpt with
    | none =>
      rw [run_succ_done cfg source rand n st em st1s hout]
      obtain ⟨hrb, -⟩ := attemptOutcome_none cfg st.outerCount st.state
        (source st.outerCount) em st1s hout
      simp only [emittedBatches_cons_subscribe, emittedBatches_map_emit]
      exact runBatches_ok_keysSet cfg st.outerCount (source st.outerCount).batches
        0 st.state em st1s hrb
    | some err =>
      rcases hh : handleFailure cfg rand
          ⟨st1s,
            if (source st.outerCount).batches.isEmpty then st.attempt else none,
            st.outerCount, st.draws⟩ err with ⟨hevs, dir⟩
      rcases attemptOutcome_some cfg st.outerCount st.state (source st.outerCount)
          em st1s err hout with ⟨hrbV, hne⟩ | ⟨hrbN, e, hfe, rfl⟩
      -- the error is a protocol violation: contradiction with the
      -- violation-free hypothesis, since the failure handler records a
      -- hookCall with that error in the trace
      · exfalso
        have hempty : (source st.outerCount).batches.isEmpty = false := by
          cases hbs : (source st.outerCount).batches with
          | nil => exact absurd hbs hne
          | cons x xs => rfl
        have hhevs : hevs = [.hookCall err none none] := by
          have := handleFailure_of_attempt_none cfg rand
            ⟨st1s,
              if (source st.outerCount).batches.isEmpty then st.attempt else none,
              st.outerCount, st.draws⟩ err (by simp [hempty])
          rw [hh] at this
          exact this
        have hmem : (.hookCall err none none : TraceEvent K V E) ∈
            (retryCollectionSubscription cfg source rand (n + 1) st).1 := by
          cases dir with
          | inl r =>
            rw [run_succ_inl cfg source rand n st em st1s err hevs r hout hh, hhevs]
            simp
          | inr st2 =>
            rw [run_succ_inr cfg source rand n st em st1s err hevs st2 hout hh, hhevs]
            simp
        have hv := hvf _ hmem
        rw [isViolation_hookCall_of_violation err none none
          (runBatches_err_violation cfg st.outerCount
            (source st.outerCount).batches 0 st.state em st1s err hrbV)] at hv
        exact Bool.noConfusion hv
      -- the error came from the source itself after clean batch
      -- processing: the state follows the emitted batches
      · have hkeys1 : st1s.keysSet = keysAfterBatches st.state.keysSet em :=
          runBatches_ok_keysSet cfg st.outerCount (source st.outerCount).batches
            0 st.state em st1s hrbN
        cases dir with
        | inl r =>
          rw [run_succ_inl cfg source rand n st em st1s (RunError.src e) hevs r
            hout hh]
          have hhevs : emittedBatches hevs = ([] : List (Batch K V)) := by
            have h5 := (handleFailure_events cfg rand
              ⟨st1s,
                if (source st.outerCount).batches.isEmpty then st.attempt
                else none,
                st.outerCount, st.draws⟩ (RunError.src e)).1
            rw [hh] at h5
            exact h5
          simp only [emittedBatches_append, emittedBatches_cons_subscribe,
            emittedBatches_map_emit, hhevs, List.append_nil]
          exact hkeys1
        | inr st2 =>
          rw [run_succ_inr cfg source rand n st em st1s (RunError.src e) hevs st2
            hout hh] at hvf ⊢
          have hvf2 : ViolationFree
              (retryCollectionSubscription cfg source rand n st2).1 := by
            intro ev hev
            refine hvf ev ?_
            simp only [List.mem_append]
            exact Or.inr hev
          have hst2 : st2.state = st1s :=
            handleFailure_inr_state cfg rand _ (RunError.src e) hevs st2 hh
          have hhevs : emittedBatches hevs = ([] : List (Batch K V)) := by
            have := (handleFailure_events cfg rand
              ⟨st1s,
                if (source st.outerCount).batches.isEmpty then st.attempt
                else none,
                st.outerCount, st.draws⟩ (RunError.src e)).1
            rw [hh] at this
            exact this
          simp only [emittedBatches_append, emittedBatches_cons_subscribe,
            emittedBatches_map_emit, hhevs, List.append_nil]
          rw [keysAfterBatches_append, ← hkeys1, ← hst2]
          exact ih st2 hvf2

theorem subscribeCount_map_emit (bs : List (Batch K V)) :
    subscribeCount ((bs.map .emit : List (TraceEvent K V E))) = 0 := by
  induction bs with
  | nil => rfl
  | cons b rest ih => simpa [subscribeCount, List.filter_cons] using ih

/-- Bounds of the half-jitter rounding: for an integer backoff B and a
uniform draw r in the unit interval, round of B times (1 + r) over 2
lies between B over 2 and B. -/
theorem round_half_jitter (n : ℤ) (r : ℚ) (hB : (0 : ℚ) ≤ (n : ℚ))
    (hr0 : 0 ≤ r) (hr1 : r < 1) :
    (n : ℚ) / 2 ≤ (round (((n : ℚ) * (1 + r)) / 2) : ℚ) ∧
      (round (((n : ℚ) * (1 + r)) / 2) : ℚ) ≤ (n : ℚ) := by
  rw [round_eq]
  have hyl : (n : ℚ) / 2 ≤ (n : ℚ) * (1 + r) / 2 := by nlinarith
  have hyu : (n : ℚ) * (1 + r) / 2 ≤ (n : ℚ) := by nlinarith
  have hfl : ((⌊(n : ℚ) * (1 + r) / 2 + 1 / 2⌋ : ℤ) : ℚ) ≤
      (n : ℚ) * (1 + r) / 2 + 1 / 2 := Int.floor_le _
  have hfu : (n : ℚ) * (1 + r) / 2 + 1 / 2 <
      ((⌊(n : ℚ) * (1 + r) / 2 + 1 / 2⌋ : ℤ) : ℚ) + 1 := Int.lt_floor_add_one _
  constructor
  · have h1 : (n : ℚ) - 1 < 2 * ((⌊(n : ℚ) * (1 + r) / 2 + 1 / 2⌋ : ℤ) : ℚ) := by
      linarith
    have h2 : n - 1 < 2 * ⌊(n : ℚ) * (1 + r) / 2 + 1 / 2⌋ := by exact_mod_cast h1
    have h3 : n ≤ 2 * ⌊(n : ℚ) * (1 + r) / 2 + 1 / 2⌋ := by omega
    have h4 : (n : ℚ) ≤ 2 * ((⌊(n : ℚ) * (1 + r) / 2 + 1 / 2⌋ : ℤ) : ℚ) := by
      exact_mod_cast h3
    linarith
  · have h1 : ((⌊(n : ℚ) * (1 + r) / 2 + 1 / 2⌋ : ℤ) : ℚ) < (n : ℚ) + 1 := by
      linarith
    have h2 : ⌊(n : ℚ) * (1 + r) / 2 + 1 / 2⌋ < n + 1 := by exact_mod_cast h1
    have h3 : ⌊(n : ℚ) * (1 + r) / 2 + 1 / 2⌋ ≤ n := by omega
    exact_mod_cast h3

/-
The claims.
-/

/-- Claim C6: for every attempt k and every uniform draw r in the unit
interval, the computed retry delay equals round of
min(maxDelayMs, baseMs times 2 to the k) times (1 + r) over 2, and lies
between that backoff over 2 and the backoff itself; with r one half and
baseMs 1000, maxDelayMs 15000, the delay for attempt 0 is 750 and for
attempt 1 is 1500. -/
theorem claim6_backoff_delay :
    (∀ (baseMs maxDelayMs k : ℕ) (r : ℚ),
      computeDelay baseMs maxDelayMs k r =
        round (((min maxDelayMs (2 ^ k * baseMs) : ℕ) : ℚ) * (1 + r) / 2)) ∧
    (∀ (baseMs maxDelayMs k : ℕ) (r : ℚ), 0 ≤ r → r < 1 →
      ((backoff baseMs maxDelayMs k : ℚ) / 2 ≤
          (computeDelay baseMs maxDelayMs k r : ℚ) ∧
        (computeDelay baseMs maxDelayMs k r : ℚ) ≤
          (backoff baseMs maxDelayMs k : ℚ))) ∧
    computeDelay 1000 15000 0 (1 / 2) = 750 ∧
    computeDelay 1000 15000 1 (1 / 2) = 1500 := by
  refine ⟨fun _ _ _ _ => rfl, ?_, ?_, ?_⟩
  · intro b m k r hr0 hr1
    have hcast : ((backoff b m k : ℕ) : ℚ) = (((backoff b m k : ℕ) : ℤ) : ℚ) := by
      push_cast
      ring
    have h := round_half_jitter ((backoff b m k : ℕ) : ℤ) r
      (by positivity) hr0 hr1
    rw [computeDelay, hcast]
    exact h
  · norm_num [computeDelay, backoff, round_eq]
  · norm_num [computeDelay, backoff, round_eq]

/-- Witness for claim C6 at baseMs 100, maxDelayMs 15000, attempt 3,
draw one quarter: backoff 800, delay 500, inside the interval. -/
theorem claim6_backoff_delay_witness :
    (0 : ℚ) ≤ 1 / 4 ∧ (1 : ℚ) / 4 < 1 ∧
    ((backoff 100 15000 3 : ℚ) / 2 ≤ (computeDelay 100 15000 3 (1 / 4) : ℚ) ∧
      (computeDelay 100 15000 3 (1 / 4) : ℚ) ≤ (backoff 100 15000 3 : ℚ)) :=
  ⟨by norm_num, by norm_num,
    claim6_backoff_delay.2.1 100 15000 3 (1 / 4) (by norm_num) (by norm_num)⟩

/-- Claim C1 (the code contradicts it): a protocol violation committed
by the source is not terminal in the code.  Because each received batch
sets attempt to undefined (source line 167) before the batch is
validated (lines 174-178 and 199-206), the violation error thrown
during batch processing is caught with attempt undefined, reported to
the onError hook as a post-initialization failure, and retried with
zero delay.  Concretely, with violationSource (attempt 0 delivers a
live delete of key 0 while State is empty, attempt 1 completes
cleanly), the run opens subscription 1 after the violation and ends in
clean completion, and the violation never surfaces as the terminal
result at any fuel. -/
theorem claim1_protocol_violation_retried :
    retryCollectionSubscription natConfig violationSource halfRand 2
        initialLoopState =
      ([.subscribe 0, .hookCall (.violationLive 0) none none, .subscribe 1],
        .done, ⟨.empty, some 0, 1, 0⟩) ∧
    ∀ fuel,
      (retryCollectionSubscription natConfig violationSource halfRand fuel
          initialLoopState).2.1 ≠ .failed (.violationLive 0) := by
  constructor
  · decide
  · intro fuel
    match fuel with
    | 0 => decide
    | 1 => decide
    | (n + 2) =>
      rw [run_succ_inr natConfig violationSource halfRand (n + 1)
        initialLoopState [] .empty (.violationLive 0)
        [.hookCall (.violationLive 0) none none] ⟨.empty, some 0, 1, 0⟩
        (by decide) (by decide)]
      rw [run_succ_done natConfig violationSource halfRand n
        ⟨.empty, some 0, 1, 0⟩ [] .empty (by decide)]
      decide

/-- Counterexample to claim C9: the first batch of the very first
subscription attempt is validated by the live-update rule, not the
reconciliation rule.  The batch upsert key 0 then delete key 0 contains
an absent value, yet the wrapper raises no protocol violation: the
batch is emitted unchanged and the run completes cleanly — whereas the
same batch as a resubscription snapshot would throw at source line
175. -/
theorem claim9_counterexample :
    retryCollectionSubscription natConfig firstBatchDeleteSource halfRand 1
        initialLoopState =
      ([.subscribe 0, .emit [⟨0, some 7⟩, ⟨0, none⟩]], .done,
        ⟨.empty, none, 0, 0⟩) ∧
    diffSnapshot natConfig.getRevision natConfig.equality JsMap.empty
        ([⟨0, some 7⟩, ⟨0, none⟩] : Batch ℕ ℕ) =
      .error (0, JsMap.empty) :=
  ⟨by decide, rfl⟩

/-- Claim C9 amended: a first batch of the very first subscription
attempt containing an absent-value update whose key is not the key of
any present-value update of the batch does raise a protocol violation —
through the live-update check (State starts empty, so the delete finds
nothing); an absent value whose key was upserted earlier in the same
batch is, unlike in a post-reconnect first batch, accepted. -/
theorem claim9_amended (cfg : Config K V R E) (b : Batch K V)
    (rest : List (Batch K V))
    (h : ∃ u ∈ b, u.value = none ∧ u.key ∉ presentKeys b) :
    ∃ k broken, runBatches cfg 0 0 JsMap.empty (b :: rest) =
      ([], broken, some (.violationLive k)) := by
  obtain ⟨k, st1, hal⟩ := applyLive_violation cfg.getRevision b JsMap.empty (by
    obtain ⟨u, hu, h1, h2⟩ := h
    exact ⟨u, hu, h1, by simp [JsMap.keys, JsMap.empty], h2⟩)
  refine ⟨k, st1, ?_⟩
  rw [runBatches, if_neg (by simp), hal]

/-- Witness for the amended claim C9: the batch holding a single delete
of key 0 raises the live protocol violation in the very first batch. -/
theorem claim9_amended_witness :
    ∃ k broken,
      runBatches natConfig 0 0 JsMap.empty
          ([[⟨0, none⟩]] : List (Batch ℕ ℕ)) =
        ([], broken, some (.violationLive k)) :=
  claim9_amended natConfig [⟨0, none⟩] [] (by decide)

/-- Counterexample to claim C3: on a snapshot with a duplicate key the
code emits an upsert that the claim rules out.  With old state mapping
key 0 to revision 1 and snapshot upserting key 0 twice with revision 1,
every snapshot item has its key in the old state with an equal stored
revision, so the claim predicts an empty diff; the code, testing the
remaining working copy from which the first occurrence already deleted
key 0, emits the second item. -/
theorem claim3_counterexample :
    diffSnapshot (fun v : ℕ => v) (fun a b : ℕ => a == b) ⟨[(0, 1)]⟩
        ([⟨0, some 1⟩, ⟨0, some 1⟩] : Batch ℕ ℕ) =
      .ok ([⟨0, some 1⟩], ⟨[(0, 1)]⟩) ∧
    claimDiffEvents (fun v : ℕ => v) (fun a b : ℕ => a == b) ⟨[(0, 1)]⟩
        ([⟨0, some 1⟩, ⟨0, some 1⟩] : Batch ℕ ℕ) = [] :=
  ⟨rfl, rfl⟩

/-- Claim C3 amended: restricted to snapshots whose keys are pairwise
distinct (and all values present), the diff computation emits exactly
the events the claim describes — upserts for the snapshot items whose
key is absent from the old state or whose revision differs from the
stored one under the injected equality, in snapshot order, followed by
one absent-value event per old-state key missing from the snapshot, in
old-state iteration order — and the new state maps exactly the snapshot
keys to their revisions. -/
theorem claim3_amended (getRevision : V → R) (equality : R → R → Bool)
    (old : JsMap K R) (snapshot : Batch K V)
    (hnd : (snapshot.map (fun u => u.key)).Nodup)
    (hvals : ∀ u ∈ snapshot, u.value ≠ none) :
    diffSnapshot getRevision equality old snapshot =
      .ok (claimDiffEvents getRevision equality old snapshot,
        claimNewState getRevision snapshot) :=
  diffSnapshot_spec getRevision equality old snapshot hnd hvals

/-- Witness for the amended claim C3: old state 0 maps to 1 and 2 maps
to 5, snapshot upserts 0 to revision 3 and 1 to revision 4; the diff is
upsert 0, upsert 1, delete 2, and the new state is the snapshot. -/
theorem claim3_amended_witness :
    diffSnapshot (fun v : ℕ => v) (fun a b : ℕ => a == b) ⟨[(0, 1), (2, 5)]⟩
        ([⟨0, some 3⟩, ⟨1, some 4⟩] : Batch ℕ ℕ) =
      .ok ([⟨0, some 3⟩, ⟨1, some 4⟩, ⟨2, none⟩], ⟨[(0, 3), (1, 4)]⟩) := by
  have h := claim3_amended (fun v : ℕ => v) (fun a b : ℕ => a == b)
    ⟨[(0, 1), (2, 5)]⟩ ([⟨0, some 3⟩, ⟨1, some 4⟩] : Batch ℕ ℕ)
    (by decide) (by decide)
  rw [h]
  rfl

theorem JsMap.ext_entries {K R : Type} {m1 m2 : JsMap K R}
    (h : m1.entries = m2.entries) : m1 = m2 := by
  cases m1
  cases m2
  cases h
  rfl

/-- Claim C7: diff idempotence.  For every well-formed state and every
reconciliation snapshot that lists exactly the state entries, in order,
with values whose revisions equal the stored ones and satisfy the
injected equality, the diff computation returns an empty batch and the
old state unchanged; and the loop still emits that empty batch to the
consumer rather than suppressing it (the reconciliation branch yields
unconditionally at source line 196). -/
theorem claim7_diff_idempotent (cfg : Config K V R E) (old : JsMap K R)
    (val : K × R → V) (hwf : old.wf)
    (hrev : ∀ en ∈ old.entries, cfg.getRevision (val en) = en.2)
    (heq : ∀ en ∈ old.entries,
      cfg.equality en.2 (cfg.getRevision (val en)) = true) :
    diffSnapshot cfg.getRevision cfg.equality old
        (old.entries.map (fun en => ⟨en.1, some (val en)⟩)) =
      .ok ([], old) ∧
    ∀ outerCount : ℕ, outerCount ≠ 0 →
      runBatches cfg outerCount 0 old
          [old.entries.map (fun en => ⟨en.1, some (val en)⟩)] =
        ([([] : Batch K V)], old, none) := by
  have hnd : (((old.entries.map (fun en => ⟨en.1, some (val en)⟩)) :
      Batch K V).map (fun u => u.key)).Nodup := by
    rw [List.map_map]
    exact hwf
  have hvals : ∀ u ∈ ((old.entries.map (fun en => ⟨en.1, some (val en)⟩)) :
      Batch K V), u.value ≠ none := by
    intro u hu
    obtain ⟨en, hen, rfl⟩ := List.mem_map.mp hu
    simp
  have hds := diffSnapshot_spec cfg.getRevision cfg.equality old _ hnd hvals
  have hup : claimUpsertEvents cfg.getRevision cfg.equality old
      (old.entries.map (fun en => ⟨en.1, some (val en)⟩)) = [] := by
    rw [claimUpsertEvents, List.filter_eq_nil_iff]
    intro u hu
    obtain ⟨en, hen, rfl⟩ := List.mem_map.mp hu
    have hget : old.get? en.1 = some en.2 :=
      JsMap.get?_eq_of_mem hwf (by rw [Prod.mk.eta]; exact hen)
    simp only [hget, heq en hen]
    simp
  have hdel : claimDeleteEvents old
      (old.entries.map (fun en => ⟨en.1, some (val en)⟩)) = [] := by
    rw [claimDeleteEvents]
    have hfk : old.keys.filter
        (fun k => !(((old.entries.map (fun en => ⟨en.1, some (val en)⟩)) :
          Batch K V).any (fun u => u.key == k))) = [] := by
      rw [List.filter_eq_nil_iff]
      intro k hk
      obtain ⟨en, hen, rfl⟩ := List.mem_map.mp hk
      simp only [Bool.not_eq_true, Bool.not_eq_false]
      have hXt : (((old.entries.map (fun en => ⟨en.1, some (val en)⟩)) :
          Batch K V).any (fun u => u.key == en.1)) = true :=
        List.any_eq_true.mpr
          ⟨⟨en.1, some (val en)⟩, List.mem_map.mpr ⟨en, hen, rfl⟩, by simp⟩
      rw [hXt]
      rfl
    rw [hfk]
    rfl
  have hnewl : ∀ l : List (K × R), (∀ en ∈ l, cfg.getRevision (val en) = en.2) →
      (claimNewState cfg.getRevision
        ((l.map (fun en => ⟨en.1, some (val en)⟩)) : Batch K V)).entries = l := by
    intro l
    induction l with
    | nil => intro _; rfl
    | cons en t ih =>
      intro hl
      simp only [List.map_cons, claimNewState, List.filterMap_cons, Option.map_some']
      rw [hl en (List.mem_cons_self _ _)]
      have ht := ih (fun w hw => hl w (List.mem_cons_of_mem _ hw))
      simp only [claimNewState] at ht
      rw [ht, Prod.mk.eta]
  have hnew : claimNewState cfg.getRevision
      (old.entries.map (fun en => ⟨en.1, some (val en)⟩)) = old :=
    JsMap.ext_entries (hnewl old.entries hrev)
  have hok : diffSnapshot cfg.getRevision cfg.equality old
      (old.entries.map (fun en => ⟨en.1, some (val en)⟩)) = .ok ([], old) := by
    rw [hds, claimDiffEvents, hup, hdel, hnew]
    rfl
  refine ⟨hok, ?_⟩
  intro o ho
  rw [runBatches, if_pos ⟨rfl, ho⟩, hok]
  rfl

/-- Witness for claim C7: state mapping 0 to 1 and 1 to 2, snapshot
upserting the same keys with the same revisions: empty diff, unchanged
state, and the empty batch is emitted by the batch loop. -/
theorem claim7_diff_idempotent_witness :
    diffSnapshot natConfig.getRevision natConfig.equality ⟨[(0, 1), (1, 2)]⟩
        ([⟨0, some 1⟩, ⟨1, some 2⟩] : Batch ℕ ℕ) = .ok ([], ⟨[(0, 1), (1, 2)]⟩) ∧
    runBatches natConfig 5 0 ⟨[(0, 1), (1, 2)]⟩
        [[⟨0, some 1⟩, ⟨1, some 2⟩]] = ([[]], ⟨[(0, 1), (1, 2)]⟩, none) := by
  have h := claim7_diff_idempotent natConfig ⟨[(0, 1), (1, 2)]⟩
    (fun en => en.2) (by decide) (fun en _ => rfl) (by decide)
  exact ⟨h.1, h.2 5 (by decide)⟩

/-- Counterexample to claim C2: a protocol violation thrown in the
middle of a batch leaves State mutated by events that are never
emitted.  The first batch upserts key 0 and then deletes the absent
key 1: the upsert has already been applied to State when the violation
is thrown, the batch is never yielded, and (because the violation is
retried, claim C1) the loop continues with a State whose key set, which
holds key 0, differs from the consumer view, which received no batch at
all. -/
theorem claim2_counterexample :
    retryCollectionSubscription natConfig midBatchViolationSource halfRand 1
        initialLoopState =
      ([.subscribe 0, .hookCall (.violationLive 1) none none], .fuelOut,
        ⟨⟨[(0, 7)]⟩, some 0, 1, 0⟩) ∧
    emittedBatches (retryCollectionSubscription natConfig
        midBatchViolationSource halfRand 1 initialLoopState).1 =
      ([] : List (Batch ℕ ℕ)) ∧
    ((retryCollectionSubscription natConfig midBatchViolationSource halfRand 1
        initialLoopState).2.2).state.keysSet ≠
      keysAfterBatches (∅ : Finset ℕ)
        (emittedBatches (retryCollectionSubscription natConfig
          midBatchViolationSource halfRand 1 initialLoopState).1) := by
  refine ⟨by decide, by decide, by decide⟩

/-- Claim C2 amended: in every run during which the source commits no
protocol violation, the key set of State equals, at every fuel bound,
the set of keys for which the consumer has received an upsert not yet
followed by a delete — State is mutated only through the batches the
run emits. -/
theorem claim2_amended (cfg : Config K V R E) (source : ℕ → AttemptSpec K V E)
    (rand : ℕ → ℚ) (fuel : ℕ)
    (hvf : ViolationFree
      (retryCollectionSubscription cfg source rand fuel initialLoopState).1) :
    ((retryCollectionSubscription cfg source rand fuel
        initialLoopState).2.2).state.keysSet =
      keysAfterBatches ∅
        (emittedBatches (retryCollectionSubscription cfg source rand fuel
          initialLoopState).1) :=
  run_keysSet cfg source rand fuel initialLoopState hvf

/-- Witness for the amended claim C2: a violation-free run with one
reconnect (reconnectSource): the final State keys match the replay of
the emitted batches. -/
theorem claim2_amended_witness :
    ViolationFree (retryCollectionSubscription natConfig reconnectSource
        halfRand 2 initialLoopState).1 ∧
    ((retryCollectionSubscription natConfig reconnectSource halfRand 2
        initialLoopState).2.2).state.keysSet =
      keysAfterBatches ∅
        (emittedBatches (retryCollectionSubscription natConfig reconnectSource
          halfRand 2 initialLoopState).1) :=
  ⟨by decide, claim2_amended natConfig reconnectSource halfRand 2 (by decide)⟩

/-- Run of the wrapper when every subscription attempt fails before any
batch: starting d + 1 units of fuel before the budget n is reached at
attempt counter a (with outerCount and draw counter also at a, as in a
run from the initial state), the run terminates by budget exhaustion
with the failure of subscription n, after exactly d further backoff
rounds with attempt numbers a to n - 1. -/
theorem run_allFail (cfg : Config K V R E) (source : ℕ → AttemptSpec K V E)
    (rand : ℕ → ℚ) (err : ℕ → E) (n : ℕ)
    (hmax : cfg.maxAttempts = some n)
    (hhook : ∀ e a d, cfg.onError e a d = none)
    (hsrc : ∀ i, source i = ⟨[], some (err i)⟩) :
    ∀ (d a : ℕ), a + d = n → ∀ s : JsMap K R,
      (retryCollectionSubscription cfg source rand (d + 1)
          ⟨s, some a, a, a⟩).2.1 = .failed (.src (err n)) ∧
      hookCalls (retryCollectionSubscription cfg source rand (d + 1)
          ⟨s, some a, a, a⟩).1 =
        (List.range' a d).map (fun k =>
          (.src (err k), some k,
            some (computeDelay cfg.baseMs cfg.maxDelayMs k (rand k)))) ∧
      subscribeCount (retryCollectionSubscription cfg source rand (d + 1)
          ⟨s, some a, a, a⟩).1 = d + 1 := by
  intro d
  induction d with
  | zero =>
    intro a ha s
    have han : a = n := by omega
    subst han
    have hout : attemptOutcome cfg a s (source a) =
        ([], s, some (.src (err a))) := by
      rw [hsrc a]
      rfl
    have hh : handleFailure cfg rand
        ⟨s, (if (source a).batches.isEmpty then some a else none), a, a⟩
        (.src (err a)) = ([], .inl (.failed (.src (err a)))) := by
      rw [hsrc a]
      simp only [List.isEmpty_nil, if_true]
      rw [handleFailure]
      simp only []
      rw [hmax]
      simp only []
      rw [if_pos (decide_eq_true (le_refl a))]
    rw [run_succ_inl cfg source rand 0 ⟨s, some a, a, a⟩ [] s (.src (err a))
      [] (.failed (.src (err a))) hout hh]
    exact ⟨rfl, rfl, rfl⟩
  | succ d ihd =>
    intro a ha s
    have han : a < n := by omega
    have hout : attemptOutcome cfg a s (source a) =
        ([], s, some (.src (err a))) := by
      rw [hsrc a]
      rfl
    have hh : handleFailure cfg rand
        ⟨s, (if (source a).batches.isEmpty then some a else none), a, a⟩
        (.src (err a)) =
        ([.hookCall (.src (err a)) (some a)
            (some (computeDelay cfg.baseMs cfg.maxDelayMs a (rand a))),
          .wait (computeDelay cfg.baseMs cfg.maxDelayMs a (rand a))],
          .inr ⟨s, some (a + 1), a + 1, a + 1⟩) := by
      rw [hsrc a]
      simp only [List.isEmpty_nil, if_true]
      rw [handleFailure]
      simp only []
      rw [hmax]
      simp only []
      rw [if_neg (fun hc => absurd (of_decide_eq_true hc) (by omega))]
      rw [hhook]
    rw [run_succ_inr cfg source rand (d + 1) ⟨s, some a, a, a⟩ [] s
      (.src (err a))
      [.hookCall (.src (err a)) (some a)
          (some (computeDelay cfg.baseMs cfg.maxDelayMs a (rand a))),
        .wait (computeDelay cfg.baseMs cfg.maxDelayMs a (rand a))]
      ⟨s, some (a + 1), a + 1, a + 1⟩ hout hh]
    obtain ⟨ih1, ih2, ih3⟩ := ihd (a + 1) (by omega) s
    refine ⟨ih1, ?_, ?_⟩
    · rw [hookCalls_append, hookCalls_append, ih2, List.range'_succ,
        List.map_cons]
      rfl
    · rw [subscribeCount_append, subscribeCount_append, ih3]
      have c1 : subscribeCount
          ((TraceEvent.subscribe
              (⟨s, some a, a, a⟩ : LoopState K R).outerCount ::
            List.map .emit ([] : List (Batch K V))) :
            List (TraceEvent K V E)) = 1 := rfl
      have c2 : subscribeCount
          (([.hookCall (.src (err a)) (some a)
              (some (computeDelay cfg.baseMs cfg.maxDelayMs a (rand a))),
            .wait (computeDelay cfg.baseMs cfg.maxDelayMs a (rand a))]) :
            List (TraceEvent K V E)) = 0 := rfl
      rw [c1, c2]
      omega

/-- Claim C4: with maxAttempts n and a source that fails with a
non-cancellation error before producing any batch on every attempt,
the run makes exactly n + 1 subscription attempts (n retries), the
failure of the last attempt propagates as the terminal error, and the
onError hook is invoked exactly n times, with attempt numbers 0 up to n - 1
in increasing order and the corresponding jittered delays. -/
theorem claim4_max_attempts (cfg : Config K V R E)
    (source : ℕ → AttemptSpec K V E) (rand : ℕ → ℚ) (err : ℕ → E) (n : ℕ)
    (hmax : cfg.maxAttempts = some n)
    (hhook : ∀ e a d, cfg.onError e a d = none)
    (hsrc : ∀ i, source i = ⟨[], some (err i)⟩) :
    (retryCollectionSubscription cfg source rand (n + 1)
        initialLoopState).2.1 = .failed (.src (err n)) ∧
    hookCalls (retryCollectionSubscription cfg source rand (n + 1)
        initialLoopState).1 =
      (List.range n).map (fun k =>
        (.src (err k), some k,
          some (computeDelay cfg.baseMs cfg.maxDelayMs k (rand k)))) ∧
    subscribeCount (retryCollectionSubscription cfg source rand (n + 1)
        initialLoopState).1 = n + 1 := by
  have h := run_allFail cfg source rand err n hmax hhook hsrc n 0 (by omega)
    JsMap.empty
  rw [List.range_eq_range']
  exact h

/-- Witness for claim C4 at maxAttempts 2 with allFailSource: terminal
error is the failure of subscription 2, the hook saw attempts 0 and 1
with delays 750 and 1500, and 3 subscriptions were opened. -/
theorem claim4_max_attempts_witness :
    (retryCollectionSubscription natConfigMax2 allFailSource halfRand 3
        initialLoopState).2.1 = .failed (.src 2) ∧
    hookCalls (retryCollectionSubscription natConfigMax2 allFailSource halfRand
        3 initialLoopState).1 =
      [(.src 0, some 0, some 750), (.src 1, some 1, some 1500)] ∧
    subscribeCount (retryCollectionSubscription natConfigMax2 allFailSource
        halfRand 3 initialLoopState).1 = 3 := by
  have h := claim4_max_attempts natConfigMax2 allFailSource halfRand
    (fun i => i) 2 rfl (fun _ _ _ => rfl) (fun _ => rfl)
  refine ⟨h.1, ?_, h.2.2⟩
  rw [h.2.1]
  have h0 : computeDelay natConfigMax2.baseMs natConfigMax2.maxDelayMs 0
      (halfRand 0) = 750 := by
    norm_num [computeDelay, backoff, round_eq, natConfigMax2, natConfig,
      halfRand]
  have h1 : computeDelay natConfigMax2.baseMs natConfigMax2.maxDelayMs 1
      (halfRand 1) = 1500 := by
    norm_num [computeDelay, backoff, round_eq, natConfigMax2, natConfig,
      halfRand]
  rw [show List.range 2 = [0, 1] from rfl, List.map_cons, List.map_cons,
    List.map_nil, h0, h1]

/-- Claim C5: after a successfully received batch the attempt counter
is unset, so a subsequent non-cancellation source failure is handled by
the post-initialization branch: the onError hook is invoked with
(error, undefined, undefined), the attempt counter is reset to 0, and
resubscription happens with zero delay — the iteration appends no wait
event to the trace, consumes no random draw (the draw counter of the
continuation state equals the old one), and recursion continues
immediately with the next subscription. -/
theorem claim5_post_init_zero_delay (cfg : Config K V R E)
    (source : ℕ → AttemptSpec K V E) (rand : ℕ → ℚ) (fuel : ℕ)
    (st : LoopState K R) (bs : List (Batch K V)) (e : E)
    (em : List (Batch K V)) (st1s : JsMap K R)
    (hsrc : source st.outerCount = ⟨bs, some e⟩)
    (hbs : bs ≠ [])
    (hrb : runBatches cfg st.outerCount 0 st.state bs = (em, st1s, none))
    (hhook : cfg.onError (.src e) none none = none) :
    retryCollectionSubscription cfg source rand (fuel + 1) st =
      ((.subscribe st.outerCount :: em.map .emit) ++
          [.hookCall (.src e) none none] ++
          (retryCollectionSubscription cfg source rand fuel
            ⟨st1s, some 0, st.outerCount + 1, st.draws⟩).1,
        (retryCollectionSubscription cfg source rand fuel
          ⟨st1s, some 0, st.outerCount + 1, st.draws⟩).2) := by
  have hempty : bs.isEmpty = false := by
    cases hbs2 : bs with
    | nil => exact absurd hbs2 hbs
    | cons x xs => rfl
  have hout : attemptOutcome cfg st.outerCount st.state (source st.outerCount) =
      (em, st1s, some (.src e)) := by
    rw [hsrc, attemptOutcome]
    simp only []
    rw [hrb]
    rfl
  have hh : handleFailure cfg rand
      ⟨st1s,
        (if (source st.outerCount).batches.isEmpty then st.attempt else none),
        st.outerCount, st.draws⟩ (.src e) =
      ([.hookCall (.src e) none none],
        .inr ⟨st1s, some 0, st.outerCount + 1, st.draws⟩) := by
    rw [hsrc]
    simp only [hempty, Bool.false_eq_true, if_false]
    rw [handleFailure]
    simp only []
    rw [hhook]
  rw [run_succ_inr cfg source rand fuel st em st1s (.src e)
    [.hookCall (.src e) none none]
    ⟨st1s, some 0, st.outerCount + 1, st.draws⟩ hout hh]

/-- Witness for claim C5: one batch then a source failure; the hook is
called with (error, undefined, undefined), no wait event appears, and
the continuation state carries attempt 0 and an unchanged draw
counter. -/
theorem claim5_post_init_zero_delay_witness :
    retryCollectionSubscription natConfig batchThenFailSource halfRand 1
        initialLoopState =
      ([.subscribe 0, .emit [⟨0, some 7⟩], .hookCall (.src 0) none none],
        .fuelOut, ⟨⟨[(0, 7)]⟩, some 0, 1, 0⟩) := by
  have h := claim5_post_init_zero_delay natConfig batchThenFailSource halfRand
    0 initialLoopState [[⟨0, some 7⟩]] 0 [[⟨0, some 7⟩]] ⟨[(0, 7)]⟩
    rfl (by decide) (by decide) rfl
  rw [h]
  decide

/-- Claim C8: a raising onError hook aborts all retries and its raised
value becomes the terminal failure.  Both hook signatures are covered:
the post-initialization invocation (error, undefined, undefined) after
an attempt that produced at least one batch, and the pre-initialization
invocation (error, attempt, delayMs) when the budget is not exhausted.
In both cases the run terminates with the hook's value for ANY residual
fuel — no further subscription is opened — and the trace ends at the
hookCall event. -/
theorem claim8_hook_raise_terminal (cfg : Config K V R E)
    (source : ℕ → AttemptSpec K V E) (rand : ℕ → ℚ) :
    (∀ (fuel : ℕ) (st : LoopState K R) (em : List (Batch K V))
        (st1s : JsMap K R) (err e2 : RunError K E),
      (source st.outerCount).batches ≠ [] →
      attemptOutcome cfg st.outerCount st.state (source st.outerCount) =
        (em, st1s, some err) →
      cfg.onError err none none = some e2 →
      retryCollectionSubscription cfg source rand (fuel + 1) st =
        ((.subscribe st.outerCount :: em.map .emit) ++
            [.hookCall err none none],
          .failed e2, ⟨st1s, none, st.outerCount, st.draws⟩)) ∧
    (∀ (fuel : ℕ) (st : LoopState K R) (n : ℕ) (e : E) (e2 : RunError K E),
      source st.outerCount = ⟨[], some e⟩ →
      st.attempt = some n →
      (∀ m, cfg.maxAttempts = some m → n < m) →
      cfg.onError (.src e) (some n)
          (some (computeDelay cfg.baseMs cfg.maxDelayMs n (rand st.draws))) =
        some e2 →
      retryCollectionSubscription cfg source rand (fuel + 1) st =
        ([.subscribe st.outerCount,
            .hookCall (.src e) (some n)
              (some (computeDelay cfg.baseMs cfg.maxDelayMs n
                (rand st.draws)))],
          .failed e2, ⟨st.state, some n, st.outerCount, st.draws⟩)) := by
  constructor
  · intro fuel st em st1s err e2 hne hout hraise
    have hempty : (source st.outerCount).batches.isEmpty = false := by
      cases hbs2 : (source st.outerCount).batches with
      | nil => exact absurd hbs2 hne
      | cons x xs => rfl
    have hh : handleFailure cfg rand
        ⟨st1s,
          (if (source st.outerCount).batches.isEmpty then st.attempt else none),
          st.outerCount, st.draws⟩ err =
        ([.hookCall err none none], .inl (.failed e2)) := by
      simp only [hempty, Bool.false_eq_true, if_false]
      rw [handleFailure]
      simp only []
      rw [hraise]
    have h := run_succ_inl cfg source rand fuel st em st1s err
      [.hookCall err none none] (.failed e2) hout hh
    rw [h]
    simp only [hempty, Bool.false_eq_true, if_false]
  · intro fuel st n e e2 hsrc hatt hbudget hraise
    have hout : attemptOutcome cfg st.outerCount st.state
        (source st.outerCount) = ([], st.state, some (.src e)) := by
      rw [hsrc]
      rfl
    have hnotex :
        (match cfg.maxAttempts with
          | some m => decide (n ≥ m)
          | none => false) = false := by
      cases hm : cfg.maxAttempts with
      | none => rfl
      | some m =>
        simp only []
        exact decide_eq_false (by have := hbudget m hm; omega)
    have hh : handleFailure cfg rand
        ⟨st.state,
          (if (source st.outerCount).batches.isEmpty then st.attempt else none),
          st.outerCount, st.draws⟩ (.src e) =
        ([.hookCall (.src e) (some n)
            (some (computeDelay cfg.baseMs cfg.maxDelayMs n (rand st.draws)))],
          .inl (.failed e2)) := by
      rw [hsrc]
      simp only [List.isEmpty_nil, if_true, hatt]
      rw [handleFailure]
      simp only []
      rw [hnotex]
      simp only [Bool.false_eq_true, if_false]
      rw [hraise]
    have h := run_succ_inl cfg source rand fuel st [] st.state (.src e)
      [.hookCall (.src e) (some n)
        (some (computeDelay cfg.baseMs cfg.maxDelayMs n (rand st.draws)))]
      (.failed e2) hout hh
    rw [h]
    rw [hsrc]
    simp only [List.isEmpty_nil, if_true, hatt]
    rfl

/-- Witness for claim C8, both signatures, with a rethrowing hook: a
post-initialization failure after one batch terminates with the
rethrown source error, and a pre-initialization failure (budget
unbounded) terminates with the rethrown error after the hookCall with
attempt 0 and delay 750. -/
theorem claim8_hook_raise_terminal_witness :
    retryCollectionSubscription rethrowConfig batchThenFailSource halfRand 1
        initialLoopState =
      ([.subscribe 0, .emit [⟨0, some 7⟩], .hookCall (.src 0) none none],
        .failed (.src 0), ⟨⟨[(0, 7)]⟩, none, 0, 0⟩) ∧
    retryCollectionSubscription rethrowConfig allFailSource halfRand 1
        initialLoopState =
      ([.subscribe 0, .hookCall (.src 0) (some 0) (some 750)],
        .failed (.src 0), ⟨.empty, some 0, 0, 0⟩) := by
  have hd : ∀ j, computeDelay rethrowConfig.baseMs rethrowConfig.maxDelayMs 0
      (halfRand j) = 750 := fun j => by
    norm_num [computeDelay, backoff, round_eq, rethrowConfig, natConfig,
      halfRand]
  constructor
  · have h := (claim8_hook_raise_terminal rethrowConfig batchThenFailSource
      halfRand).1 0 initialLoopState [[⟨0, some 7⟩]] ⟨[(0, 7)]⟩
      (.src 0) (.src 0) (by decide) (by decide) rfl
    rw [h]
    decide
  · have h := (claim8_hook_raise_terminal rethrowConfig allFailSource
      halfRand).2 0 initialLoopState 0 0 (.src 0) rfl rfl
      (fun m hm => Option.noConfusion hm) rfl
    rw [h, hd]
    rfl

/-- Claim C10: the attempt budget bounds only failures that occur
before any batch of the current subscription attempt.  If every
subscription attempt yields at least one batch and then fails with a
non-cancellation error, then for every finite maxAttempts m at least 1
the run never terminates by budget exhaustion: for every fuel bound the
executor merely runs out of fuel, having opened exactly one
subscription per unit of fuel — the number of (re)subscriptions grows
without bound. -/
theorem claim10_budget_only_preinit (cfg : Config K V R E)
    (source : ℕ → AttemptSpec K V E) (rand : ℕ → ℚ) (m : ℕ)
    (hmax : cfg.maxAttempts = some m) (hm : 1 ≤ m)
    (hsrc : ∀ i, (source i).batches ≠ [] ∧ (source i).failure ≠ none)
    (hhook : ∀ e, cfg.onError e none none = none) :
    ∀ (fuel : ℕ) (st : LoopState K R),
      (retryCollectionSubscription cfg source rand fuel st).2.1 = .fuelOut ∧
      subscribeCount
        (retryCollectionSubscription cfg source rand fuel st).1 = fuel := by
  intro fuel
  induction fuel with
  | zero => intro st; exact ⟨rfl, rfl⟩
  | succ n ih =>
    intro st
    rcases hout : attemptOutcome cfg st.outerCount st.state
      (source st.outerCount) with ⟨em, st1s, errOpt⟩
    cases errOpt with
    | none =>
      obtain ⟨-, hfail⟩ := attemptOutcome_none cfg st.outerCount st.state
        (source st.outerCount) em st1s hout
      exact absurd hfail (hsrc st.outerCount).2
    | some err =>
      have hempty : (source st.outerCount).batches.isEmpty = false := by
        cases hbs2 : (source st.outerCount).batches with
        | nil => exact absurd hbs2 (hsrc st.outerCount).1
        | cons x xs => rfl
      have hh : handleFailure cfg rand
          ⟨st1s,
            (if (source st.outerCount).batches.isEmpty then st.attempt
              else none),
            st.outerCount, st.draws⟩ err =
          ([.hookCall err none none],
            .inr ⟨st1s, some 0, st.outerCount + 1, st.draws⟩) := by
        simp only [hempty, Bool.false_eq_true, if_false]
        rw [handleFailure]
        simp only []
        rw [hhook]
      rw [run_succ_inr cfg source rand n st em st1s err
        [.hookCall err none none]
        ⟨st1s, some 0, st.outerCount + 1, st.draws⟩ hout hh]
      obtain ⟨ih1, ih2⟩ := ih ⟨st1s, some 0, st.outerCount + 1, st.draws⟩
      refine ⟨ih1, ?_⟩
      rw [subscribeCount_append, subscribeCount_append, ih2,
        subscribeCount_cons_subscribe, subscribeCount_map_emit]
      have c2 : subscribeCount
          (([.hookCall err none none]) : List (TraceEvent K V E)) = 0 := rfl
      rw [c2]
      omega

/-- Witness for claim C10: maxAttempts 1 with batchThenFailSource, fuel
3: the run is still going after three subscriptions. -/
theorem claim10_budget_only_preinit_witness :
    (retryCollectionSubscription natConfigMax1 batchThenFailSource halfRand 3
        initialLoopState).2.1 = .fuelOut ∧
    subscribeCount (retryCollectionSubscription natConfigMax1
        batchThenFailSource halfRand 3 initialLoopState).1 = 3 :=
  claim10_budget_only_preinit natConfigMax1 batchThenFailSource halfRand 1
    rfl (le_refl 1)
    (fun i => ⟨List.cons_ne_nil _ _, Option.some_ne_none i⟩)
    (fun e => rfl) 3 initialLoopState

end RetrySubscription
